import Mathlib

/-!
Verification of the railway itinerary optimizer (`railway-tsp/solve.py`).

The file shallowly embeds the two core functions of the source,
`convert_to_timetable` and `find_optimal_route_by_bit_dp`, as executable
Lean functions over `Nat`, and proves the specified properties about them.
Times are minutes since midnight, stations are integer ids, exactly as in
the source.  Python lists become Lean lists; the mutable timetable and DP
arrays become recursively defined functions that are materialised into
nested lists where the source exposes them as arrays.
-/

/-- One scheduled movement of a train between two stations,
mirroring class `Section` of the source. -/
structure Section where
  from_station : Nat
  to_station : Nat
  from_time : Nat
  to_time : Nat
deriving DecidableEq

/-- All sections of all trains, in order (the source iterates
`for train in trains: for section in train`). -/
def sectionsOf (trains : List (List Section)) : List Section :=
  trains.flatten

/-- Embeds `max_time = 1 + max(section.to_time for ...)`.  On the empty
input the source raises; here the fold starts at 0, and every claim that
needs it assumes a non-empty input, where both agree. -/
def maxTime (trains : List (List Section)) : Nat :=
  1 + (sectionsOf trains).foldl (fun m s => max m s.to_time) 0

/-- Embeds `n_stations = len(set(section.to_station for ...))`:
the number of distinct destination stations. -/
def nStations (trains : List (List Section)) : Nat :=
  ((sectionsOf trains).map (fun s => s.to_station)).dedup.length

/-- Whether minute `t` is marked in `target_time_flag`: some section
departs or arrives at minute `t`. -/
def isTargetTime (trains : List (List Section)) (t : Nat) : Bool :=
  (sectionsOf trains).any (fun s => s.from_time = t || s.to_time = t)

/-- Embeds `target_times`: the marked minutes below the horizon,
in increasing order. -/
def targetTimes (trains : List (List Section)) : List Nat :=
  (List.range (maxTime trains)).filter (fun t => isTargetTime trains t)

/-- The next relevant minute after `t` (the partner of `t` in the
`zip(target_times[:-1], target_times[1:])` wait edges). -/
def nextTargetTime (trains : List (List Section)) (t : Nat) : Option Nat :=
  ((targetTimes trains).filter (fun u => t < u)).head?

/-- Embeds the adjacency `adj` on (time, station) nodes: ride edges from
every section departing at the node, plus the wait edge to the next
relevant minute at the same station. -/
def adjF (trains : List (List Section)) (node : Nat × Nat) : List (Nat × Nat) :=
  ((sectionsOf trains).filter
      (fun s => s.from_time = node.1 && s.from_station = node.2)).map
      (fun s => (s.to_time, s.to_station))
  ++ (if node.2 < nStations trains && isTargetTime trains node.1
        && node.1 < maxTime trains then
        match nextTargetTime trains node.1 with
        | some u => [(u, node.2)]
        | none => []
      else [])

/-- One round of breadth-first expansion: keep the known nodes and add
every successor. -/
def expandNodes (trains : List (List Section)) (ns : List (Nat × Nat)) :
    List (Nat × Nat) :=
  (ns ++ ns.flatMap (adjF trains)).dedup

/-- Nodes reachable from `src` in at most `k` expansion rounds. -/
def closureIter (trains : List (List Section)) : Nat → Nat × Nat → List (Nat × Nat)
  | 0, src => [src]
  | k + 1, src => expandNodes trains (closureIter trains k src)

/-- The set `visited` of the source's BFS: every edge of the graph moves
strictly forward in time and all times are below the horizon, so
`maxTime` rounds saturate the search. -/
def reachList (trains : List (List Section)) (src : Nat × Nat) : List (Nat × Nat) :=
  closureIter trains (maxTime trains) src

/-- Embeds `min_to_time[st]`: the least time at which station `st` is
visited by the BFS from `src`, or the horizon if it never is. -/
def bfsMin (trains : List (List Section)) (src : Nat × Nat) (st : Nat) : Nat :=
  ((reachList trains src).filter (fun p => p.2 = st)).foldl
    (fun m p => min m p.1) (maxTime trains)

/-- Whether some section departs station `f` at minute `t` (Step 1 of the
source registers exactly these timetable rows). -/
def registeredEvent (trains : List (List Section)) (f t : Nat) : Bool :=
  (sectionsOf trains).any (fun s => s.from_station = f && s.from_time = t)

/-- The timetable cell written by Step 1 of `convert_to_timetable`:
for a departure event of station `f` at minute `t`, the pair
(boarding minute `t`, earliest reachable arrival at `to`), when that
arrival is below the horizon; otherwise the untouched sentinel. -/
def step1 (trains : List (List Section)) (f toSt t : Nat) : Nat × Nat :=
  if f ≠ toSt ∧ toSt < nStations trains ∧ registeredEvent trains f t = true then
    (if bfsMin trains (t, f) toSt < maxTime trains then
      (t, bfsMin trains (t, f) toSt)
    else (maxTime trains, maxTime trains))
  else (maxTime trains, maxTime trains)

/-- Python's `min` on pairs of naturals: lexicographic, first argument on
ties. -/
def pairMin (p q : Nat × Nat) : Nat × Nat :=
  if p.1 < q.1 ∨ (p.1 = q.1 ∧ p.2 ≤ q.2) then p else q

/-- Step 2 of `convert_to_timetable`: the backward fill
`timetable[f][to][t] = min(timetable[f][to][t], timetable[f][to][t+1])`
for `t` from `max_time - 2` down to 0, expressed as a suffix minimum
computed with explicit fuel. -/
def fillAux (trains : List (List Section)) (f toSt : Nat) :
    Nat → Nat → Nat × Nat
  | 0, t => step1 trains f toSt t
  | k + 1, t =>
    if t + 1 < maxTime trains then
      pairMin (step1 trains f toSt t) (fillAux trains f toSt k (t + 1))
    else step1 trains f toSt t

/-- The cell `timetable[f][toSt][t]` after the backward fill; the fuel
`maxTime - t` makes the recursion structural and is exactly the number of
loop iterations that can still touch position `t`. -/
def fillFrom (trains : List (List Section)) (f toSt t : Nat) : Nat × Nat :=
  fillAux trains f toSt (maxTime trains - t) t

/-- Embeds `convert_to_timetable`: the final
`n_stations x n_stations x max_time` nested-list structure. -/
def convert_to_timetable (trains : List (List Section)) :
    List (List (List (Nat × Nat))) :=
  (List.range (nStations trains)).map fun f =>
    (List.range (nStations trains)).map fun toSt =>
      (List.range (maxTime trains)).map fun t => fillFrom trains f toSt t

/-- Array subscription `timetable[f][to][t]`; the default is irrelevant,
every use is guarded by bounds. -/
def ttGet (tt : List (List (List (Nat × Nat)))) (f toSt t : Nat) : Nat × Nat :=
  ((tt.getD f []).getD toSt []).getD t (0, 0)

/-- Embeds `n_stations = len(timetable)` of the optimizer. -/
def nOf (tt : List (List (List (Nat × Nat)))) : Nat := tt.length

/-- Embeds `max_time = len(timetable[0][0])` of the optimizer. -/
def mOf (tt : List (List (List (Nat × Nat)))) : Nat :=
  ((tt.getD 0 []).getD 0 []).length

/-- One iteration of the `for from_station in range(n_stations)` update
loop of the source's DP: skipped iterations leave the accumulator
unchanged, and a strictly smaller arrival replaces it and records the
parent.  `dpPrev f` stands for `dp[f][state - (1 << toSt)]`. -/
def dpStep (tt : List (List (List (Nat × Nat)))) (d toSt state : Nat)
    (dpPrev : Nat → Nat) (acc : Nat × Option (Nat × Nat)) (f : Nat) :
    Nat × Option (Nat × Nat) :=
  if f = toSt then acc
  else if state - (1 <<< toSt) ≠ 0 ∧
      (state - (1 <<< toSt)).testBit f = false then acc
  else if mOf tt ≤ dpPrev f + d then acc
  else if (ttGet tt f toSt (dpPrev f + d)).2 < acc.1 then
    ((ttGet tt f toSt (dpPrev f + d)).2, some (f, state - (1 <<< toSt)))
  else acc

/-- Fuel-indexed form of the bitmask DP; the recursion is structural on
the fuel, and a predecessor state `state - (1 << toSt)` is strictly
smaller than `state`, so fuel `state` always suffices. -/
def dpF (tt : List (List (List (Nat × Nat)))) (start d : Nat) :
    Nat → Nat → Nat → Nat × Option (Nat × Nat)
  | 0, toSt, state =>
    if state = 0 then (if toSt = start then 0 else mOf tt, none)
    else (mOf tt, none)
  | k + 1, toSt, state =>
    if state = 0 then (if toSt = start then 0 else mOf tt, none)
    else if state.testBit toSt then
      (List.range (nOf tt)).foldl
        (dpStep tt d toSt state
          (fun f => (dpF tt start d k f (state - (1 <<< toSt))).1))
        (mOf tt, none)
    else (mOf tt, none)

/-- Embeds the bitmask-DP of `find_optimal_route_by_bit_dp` together
with its parent table: `dpP tt start d toSt state` is the pair
(`dp[toSt][state]`, `parent[toSt][state]`). -/
def dpP (tt : List (List (List (Nat × Nat)))) (start d toSt state : Nat) :
    Nat × Option (Nat × Nat) :=
  dpF tt start d state toSt state

/-- The value `dp[toSt][state]` of the source's DP. -/
def dpValue (tt : List (List (List (Nat × Nat)))) (start d toSt state : Nat) :
    Nat :=
  (dpP tt start d toSt state).1

/-- The entry `parent[toSt][state]` of the source's DP. -/
def dpParent (tt : List (List (List (Nat × Nat)))) (start d toSt state : Nat) :
    Option (Nat × Nat) :=
  (dpP tt start d toSt state).2

/-- The path-reconstruction loop of `find_optimal_route_by_bit_dp`, in the
order the sections are appended (the source reverses at the end).  The
fuel only bounds the walk; the chain of parent pointers strictly decreases
the state, so `state + 1` fuel is always enough. -/
def reconstruct (tt : List (List (List (Nat × Nat)))) (start d : Nat) :
    Nat → Nat → Nat → List Section
  | 0, _, _ => []
  | fuel + 1, toSt, state =>
    match dpParent tt start d toSt state with
    | none => []
    | some (f, fs) =>
      let c := dpValue tt start d f fs + d
      Section.mk f toSt (ttGet tt f toSt c).1 (ttGet tt f toSt c).2 ::
        reconstruct tt start d fuel f fs

/-- Embeds `find_optimal_route_by_bit_dp` (route only; the source returns
just `optimal_path`). -/
def find_optimal_route_by_bit_dp (tt : List (List (List (Nat × Nat))))
    (start d : Nat) : List Section :=
  (reconstruct tt start d (1 <<< nOf tt - 1 + 1) start (1 <<< nOf tt - 1)).reverse

/-- Default section used only to read heads and last elements of
journeys that are known to be non-empty. -/
def dfltSec : Section := ⟨0, 0, 0, 0⟩

/-- First section of a journey. -/
def headSec (js : List Section) : Section := js.head?.getD dfltSec

/-- Last section of a journey. -/
def lastSec (js : List Section) : Section := js.getLast?.getD dfltSec

/-- A traveller can continue from section `a` onto section `b`: `b`
departs from the station where `a` arrives, no earlier than `a` arrives.
Riding consecutive legs of one trip and transferring by waiting at a
station are both instances of this relation. -/
def SecStep (a b : Section) : Prop :=
  a.to_station = b.from_station ∧ a.to_time ≤ b.from_time

instance : DecidableRel SecStep := fun a b =>
  inferInstanceAs (Decidable (a.to_station = b.from_station ∧ a.to_time ≤ b.from_time))

/-- Decision procedure for chains of `SecStep` built by plain structural
recursion, so that it evaluates inside the kernel. -/
def chainDec : (l : List Section) → Decidable (List.Chain' SecStep l)
  | [] => isTrue List.chain'_nil
  | [a] => isTrue (List.chain'_singleton a)
  | a :: b :: rest =>
    match inferInstanceAs (Decidable (SecStep a b)), chainDec (b :: rest) with
    | isTrue h1, isTrue h2 => isTrue (List.chain'_cons.mpr ⟨h1, h2⟩)
    | isFalse h1, _ => isFalse (fun hc => h1 (List.chain'_cons.mp hc).1)
    | _, isFalse h2 => isFalse (fun hc => h2 (List.chain'_cons.mp hc).2)

instance (l : List Section) : Decidable (List.Chain' SecStep l) := chainDec l

/-- A journey from station `f` to station `toSt` for a traveller present
at `f` from minute `t` onward: a non-empty sequence of scheduled
sections, each boardable after the previous one arrives. -/
def IsJourney (trains : List (List Section)) (f toSt t : Nat)
    (js : List Section) : Prop :=
  js ≠ [] ∧ (∀ s ∈ js, s ∈ sectionsOf trains) ∧ List.Chain' SecStep js ∧
    (headSec js).from_station = f ∧ t ≤ (headSec js).from_time ∧
    (lastSec js).to_station = toSt

/-- Arrival time of a journey. -/
def journeyArr (js : List Section) : Nat := (lastSec js).to_time

/-- One leg of the source data is well formed: it moves forward in time
(spec: destination time greater than origin time) and both its stations
lie in the station range the builder allocates. -/
def ValidSection (trains : List (List Section)) (s : Section) : Prop :=
  s.from_time < s.to_time ∧ s.from_station < nStations trains ∧
    s.to_station < nStations trains

/-- A trip is well formed in the sense of the spec: non-empty, and
consecutive legs are station-contiguous and time-ordered. -/
def SpecTripOK (tr : List Section) : Prop :=
  tr ≠ [] ∧ List.Chain' SecStep tr

/-- A valid trip set: non-empty data, well-formed trips, and every leg
individually valid with stations inside the allocated range. -/
def ValidTrips (trains : List (List Section)) : Prop :=
  sectionsOf trains ≠ [] ∧ (∀ tr ∈ trains, SpecTripOK tr) ∧
    ∀ s ∈ sectionsOf trains, ValidSection trains s

instance (trains : List (List Section)) : Decidable (ValidTrips trains) :=
  inferInstanceAs (Decidable (_ ≠ [] ∧ (∀ tr ∈ trains, _ ≠ [] ∧ List.Chain' SecStep tr) ∧
    ∀ s ∈ sectionsOf trains, s.from_time < s.to_time ∧
      s.from_station < nStations trains ∧ s.to_station < nStations trains))

/-- Modelled from the spec: one hop of ReferenceFullSearch's left-to-right
tour simulation (the reference implementation exists only in the spec, not
in the repository).  Being at `cur` at minute `t`, dwell `d` minutes and
ride the timetable connection to `next`; the horizon `mOf tt` saturates,
mirroring the DP's `current_time >= max_time` skip. -/
def stepTime (tt : List (List (List (Nat × Nat)))) (d cur next t : Nat) : Nat :=
  if mOf tt ≤ t + d then mOf tt else (ttGet tt cur next (t + d)).2

/-- Modelled from the spec: simulate the remaining visiting order, then
ride back to the start station. -/
def simulateFrom (tt : List (List (List (Nat × Nat)))) (d start : Nat) :
    Nat → Nat → List Nat → Nat
  | cur, t, [] => stepTime tt d cur start t
  | cur, t, x :: xs => simulateFrom tt d start x (stepTime tt d cur x t) xs

/-- Modelled from the spec: total arrival time of the closed tour that
visits `order` left to right starting and ending at `start`.  An empty
order is the one-station tour, which requires no travel and ends at
minute 0. -/
def tourTime (tt : List (List (List (Nat × Nat)))) (d start : Nat)
    (order : List Nat) : Nat :=
  match order with
  | [] => 0
  | x :: xs => simulateFrom tt d start x (stepTime tt d start x 0) xs

/-- Modelled from the spec: `ReferenceFullSearch.search`, exhaustively
enumerating all permutations of the non-start stations and keeping the
minimum arrival; the horizon value doubles as the unreachable result. -/
def bruteForce (tt : List (List (List (Nat × Nat)))) (d start : Nat) : Nat :=
  ((((List.range (nOf tt)).filter (fun x => x ≠ start)).permutations').map
    (tourTime tt d start)).foldl min (mOf tt)

/-- Station ids occurring as some leg's origin. -/
def originStations (trains : List (List Section)) : List Nat :=
  (sectionsOf trains).map (fun s => s.from_station)

/-- Station ids occurring as some leg's destination. -/
def destStations (trains : List (List Section)) : List Nat :=
  (sectionsOf trains).map (fun s => s.to_station)

/-- Every station id occurring anywhere in the input, without repetition:
the true station range of the data. -/
def allStations (trains : List (List Section)) : List Nat :=
  (originStations trains ++ destStations trains).dedup

/-- Station `x` occurs only as an origin, never as a destination. -/
def OriginOnly (trains : List (List Section)) (x : Nat) : Prop :=
  x ∈ originStations trains ∧ x ∉ destStations trains

/-- All Step-1 writes `timetable[section.from_station][...]` index inside
the allocated `n_stations`-sized array. -/
def Step1WritesInBounds (trains : List (List Section)) : Prop :=
  ∀ s ∈ sectionsOf trains, s.from_station < nStations trains

/-- The timetable invariants assumed by the optimizer (spec section 3):
within bounds, arrivals never exceed the horizon, and leaving later never
yields an earlier arrival. -/
def TimetableMono (tt : List (List (List (Nat × Nat)))) : Prop :=
  ∀ f < nOf tt, ∀ toSt < nOf tt, ∀ t < mOf tt, t + 1 < mOf tt →
    (ttGet tt f toSt t).2 ≤ (ttGet tt f toSt (t + 1)).2

/-- Arrival entries are bounded by the horizon sentinel. -/
def TimetableBounded (tt : List (List (List (Nat × Nat)))) : Prop :=
  ∀ f < nOf tt, ∀ toSt < nOf tt, ∀ t < mOf tt, (ttGet tt f toSt t).2 ≤ mOf tt

instance (tr : List Section) : Decidable (SpecTripOK tr) :=
  inferInstanceAs (Decidable (tr ≠ [] ∧ List.Chain' SecStep tr))

instance (trains : List (List Section)) (x : Nat) :
    Decidable (OriginOnly trains x) :=
  inferInstanceAs (Decidable (x ∈ originStations trains ∧ x ∉ destStations trains))

instance (trains : List (List Section)) :
    Decidable (Step1WritesInBounds trains) :=
  inferInstanceAs (Decidable (∀ s ∈ sectionsOf trains, s.from_station < nStations trains))

/-- Concrete train data used to instantiate the theorems: two direct
departures from station 0 (to 1 at minute 3, to 2 at minute 7) and a
late return train from 1 to 0. -/
def exTrains : List (List Section) :=
  [[⟨0, 1, 3, 5⟩], [⟨0, 2, 7, 9⟩], [⟨1, 0, 10, 11⟩]]

/-- A one-station timetable with horizon 2 and sentinel cells. -/
def exOneStation : List (List (List (Nat × Nat))) := [[[(2, 2), (2, 2)]]]

/-- A two-station timetable with horizon 1 whose cells are all the
sentinel: no connection exists at all. -/
def exUnreachable : List (List (List (Nat × Nat))) :=
  [[[(1, 1)], [(1, 1)]], [[(1, 1)], [(1, 1)]]]

/-- A malformed input: one trip whose second leg departs before the first
one arrives (times not ordered along the trip). -/
def exMalformed : List (List Section) := [[⟨0, 1, 3, 5⟩, ⟨1, 0, 2, 4⟩]]

/-- Station 1 occurs only as an origin and its id is outside the
allocated range (the only destination is station 0). -/
def exOriginOOB : List (List Section) := [[⟨1, 0, 3, 5⟩]]

/-- Station 0 occurs only as an origin but its id is inside the allocated
range of 2 stations (destinations 1 and 2). -/
def exOriginInBounds : List (List Section) :=
  [[⟨0, 1, 3, 5⟩], [⟨1, 2, 7, 9⟩]]

/-- One row of the hand-written two-station timetable: board at the
requested minute, arrive at minute 3, horizon 6. -/
def exRow : List (Nat × Nat) := (List.range 6).map (fun t => (t, 3))

/-- A hand-written well-formed two-station timetable with horizon 6. -/
def exSmallTT : List (List (List (Nat × Nat))) :=
  [[exRow, exRow], [exRow, exRow]]

instance (tt : List (List (List (Nat × Nat)))) : Decidable (TimetableMono tt) :=
  inferInstanceAs (Decidable (∀ f < nOf tt, ∀ toSt < nOf tt, ∀ t < mOf tt,
    t + 1 < mOf tt → (ttGet tt f toSt t).2 ≤ (ttGet tt f toSt (t + 1)).2))

instance (tt : List (List (List (Nat × Nat)))) : Decidable (TimetableBounded tt) :=
  inferInstanceAs (Decidable (∀ f < nOf tt, ∀ toSt < nOf tt, ∀ t < mOf tt,
    (ttGet tt f toSt t).2 ≤ mOf tt))

/-- Bitmask of a list of station ids (the `visitedSet` encoding of the
DP, as built by `1 << station` bits). -/
def maskOf (l : List Nat) : Nat :=
  l.foldr (fun x m => m ||| (1 <<< x)) 0

/-- Arrival time after visiting `order` left to right, starting at `cur`
at minute `t` (no return hop); each hop dwells `d` minutes and rides the
timetable connection, with the horizon saturating. -/
def walkArr (tt : List (List (List (Nat × Nat)))) (d : Nat) :
    Nat → Nat → List Nat → Nat
  | _, t, [] => t
  | cur, t, x :: xs => walkArr tt d x (stepTime tt d cur x t) xs

/-- Some visiting order of the stations in `state` that ends at `toSt`:
the other members of `state` in increasing order, then `toSt`. -/
def stOrderOf (n state toSt : Nat) : List Nat :=
  ((List.range n).filter (fun i => state.testBit i && !(i == toSt))) ++ [toSt]

/-- One edge of the BFS graph `adj`: ride a section departing at the node
or wait until the next relevant minute. -/
def EdgeRel (trains : List (List Section)) (u v : Nat × Nat) : Prop :=
  v ∈ adjF trains u

/-- Reachability in the BFS graph. -/
def Reach (trains : List (List Section)) (src v : Nat × Nat) : Prop :=
  Relation.ReflTransGen (EdgeRel trains) src v

/-- Lexicographic order on time pairs, matching Python's tuple
comparison. -/
def pairLe (p q : Nat × Nat) : Prop :=
  p.1 < q.1 ∨ (p.1 = q.1 ∧ p.2 ≤ q.2)

/-- Candidate value contributed by `from_station = f` in the DP update
loop; skipped iterations contribute the sentinel, which never wins. -/
def dpCand (tt : List (List (List (Nat × Nat)))) (d toSt state : Nat)
    (g : Nat → Nat) (f : Nat) : Nat :=
  if f = toSt then mOf tt
  else if state - (1 <<< toSt) ≠ 0 ∧
      (state - (1 <<< toSt)).testBit f = false then mOf tt
  else if mOf tt ≤ g f + d then mOf tt
  else (ttGet tt f toSt (g f + d)).2

/-- Invariant of the DP update loop relating the accumulator to a
recorded parent: a recorded parent is a legal, non-skipped transition
that produced the current value, below the sentinel. -/
def DpParentOK (tt : List (List (List (Nat × Nat)))) (d toSt state : Nat)
    (g : Nat → Nat) (acc : Nat × Option (Nat × Nat)) : Prop :=
  ∀ f fs', acc.2 = some (f, fs') →
    fs' = state - (1 <<< toSt) ∧ f ≠ toSt ∧
    (state - (1 <<< toSt) = 0 ∨ (state - (1 <<< toSt)).testBit f = true) ∧
    g f + d < mOf tt ∧ acc.1 = (ttGet tt f toSt (g f + d)).2 ∧
    acc.1 < mOf tt

/-! ### Helper lemmas about the DP fold -/

theorem dpF_irrel (tt : List (List (List (Nat × Nat)))) (start d : Nat) :
    ∀ k toSt state, state ≤ k →
      dpF tt start d k toSt state = dpF tt start d state toSt state := by
  intro k
  induction k using Nat.strong_induction_on with
  | _ k ih =>
    intro toSt state hle
    cases k with
    | zero =>
      have h0 : state = 0 := Nat.le_zero.mp hle
      subst h0
      rfl
    | succ j =>
      by_cases h0 : state = 0
      · subst h0
        simp [dpF]
      obtain ⟨m, rfl⟩ : ∃ m, state = m + 1 := ⟨state - 1, by omega⟩
      by_cases hb : (m + 1).testBit toSt
      · have hpos : 0 < 1 <<< toSt := by
          rw [Nat.one_shiftLeft]
          exact Nat.two_pow_pos _
        have hg : (fun f => (dpF tt start d j f ((m + 1) - (1 <<< toSt))).1)
            = (fun f => (dpF tt start d m f ((m + 1) - (1 <<< toSt))).1) := by
          funext f
          rw [ih j (by omega) f _ (by omega), ih m (by omega) f _ (by omega)]
        simp only [dpF, if_neg h0, if_pos hb]
        rw [hg]
      · simp only [dpF, if_neg h0]
        rw [if_neg hb, if_neg hb]

theorem dpP_zero (tt : List (List (List (Nat × Nat)))) (start d toSt : Nat) :
    dpP tt start d toSt 0 = (if toSt = start then 0 else mOf tt, none) := by
  rfl

theorem dpP_not_mem (tt : List (List (List (Nat × Nat)))) (start d toSt state : Nat)
    (h0 : state ≠ 0) (hb : state.testBit toSt = false) :
    dpP tt start d toSt state = (mOf tt, none) := by
  unfold dpP
  obtain ⟨m, rfl⟩ : ∃ m, state = m + 1 := ⟨state - 1, by omega⟩
  simp only [dpF, if_neg h0]
  rw [if_neg (by simp [hb])]

theorem dpP_mem (tt : List (List (List (Nat × Nat)))) (start d toSt state : Nat)
    (h0 : state ≠ 0) (hb : state.testBit toSt = true) :
    dpP tt start d toSt state =
      (List.range (nOf tt)).foldl
        (dpStep tt d toSt state
          (fun f => (dpP tt start d f (state - (1 <<< toSt))).1))
        (mOf tt, none) := by
  unfold dpP
  obtain ⟨m, rfl⟩ : ∃ m, state = m + 1 := ⟨state - 1, by omega⟩
  have hpos : 0 < 1 <<< toSt := by
    rw [Nat.one_shiftLeft]
    exact Nat.two_pow_pos _
  have hg : (fun f => (dpF tt start d m f ((m + 1) - (1 <<< toSt))).1)
      = (fun f => (dpF tt start d ((m + 1) - (1 <<< toSt)) f ((m + 1) - (1 <<< toSt))).1) := by
    funext f
    rw [dpF_irrel tt start d m f _ (by omega)]
  simp only [dpF, if_neg h0, if_pos hb]
  rw [hg]

theorem dpStep_fst_le (tt : List (List (List (Nat × Nat)))) (d toSt state : Nat)
    (g : Nat → Nat) (acc : Nat × Option (Nat × Nat)) (f : Nat) :
    (dpStep tt d toSt state g acc f).1 ≤ acc.1 := by
  by_cases h1 : f = toSt
  · simp [dpStep, h1]
  by_cases h2 : state - (1 <<< toSt) ≠ 0 ∧ (state - (1 <<< toSt)).testBit f = false
  · simp [dpStep, h1, h2]
  by_cases h3 : mOf tt ≤ g f + d
  · simp [dpStep, h1, h2, h3]
  by_cases h4 : (ttGet tt f toSt (g f + d)).2 < acc.1
  · simp [dpStep, h1, h2, h3, h4]
    omega
  · simp [dpStep, h1, h2, h3, h4]

theorem dpFold_fst_le (tt : List (List (List (Nat × Nat)))) (d toSt state : Nat)
    (g : Nat → Nat) (l : List Nat) (acc : Nat × Option (Nat × Nat)) :
    ((l.foldl (dpStep tt d toSt state g) acc)).1 ≤ acc.1 := by
  induction l generalizing acc with
  | nil => simp
  | cons f rest ih =>
    simp only [List.foldl_cons]
    exact le_trans (ih _) (dpStep_fst_le ..)

theorem dpStep_none (tt : List (List (List (Nat × Nat)))) (d toSt state : Nat)
    (g : Nat → Nat) (acc : Nat × Option (Nat × Nat)) (f : Nat)
    (h : (dpStep tt d toSt state g acc f).2 = none) :
    dpStep tt d toSt state g acc f = acc := by
  by_cases h1 : f = toSt
  · simp [dpStep, h1]
  by_cases h2 : state - (1 <<< toSt) ≠ 0 ∧ (state - (1 <<< toSt)).testBit f = false
  · simp [dpStep, h1, h2]
  by_cases h3 : mOf tt ≤ g f + d
  · simp [dpStep, h1, h2, h3]
  by_cases h4 : (ttGet tt f toSt (g f + d)).2 < acc.1
  · exfalso
    simp [dpStep, h1, h2, h3, h4] at h
  · simp [dpStep, h1, h2, h3, h4]

theorem dpFold_none (tt : List (List (List (Nat × Nat)))) (d toSt state : Nat)
    (g : Nat → Nat) (l : List Nat) (acc : Nat × Option (Nat × Nat))
    (h : ((l.foldl (dpStep tt d toSt state g) acc)).2 = none) :
    (l.foldl (dpStep tt d toSt state g) acc) = acc := by
  induction l generalizing acc with
  | nil => simp
  | cons f rest ih =>
    simp only [List.foldl_cons] at h ⊢
    have h2 := ih (dpStep tt d toSt state g acc f) h
    rw [h2] at h ⊢
    exact dpStep_none _ _ _ _ _ _ _ h

theorem minFold_le_init {α : Type} (c : α → Nat) (l : List α) (a : Nat) :
    l.foldl (fun m f => min m (c f)) a ≤ a := by
  induction l generalizing a with
  | nil => simp
  | cons f rest ih =>
    simp only [List.foldl_cons]
    exact le_trans (ih _) (Nat.min_le_left _ _)

theorem minFold_le_mem {α : Type} (c : α → Nat) (l : List α) (f : α)
    (hf : f ∈ l) : ∀ a, l.foldl (fun m g => min m (c g)) a ≤ c f := by
  induction l with
  | nil => simp at hf
  | cons x rest ih =>
    intro a
    simp only [List.foldl_cons]
    rcases List.mem_cons.mp hf with h | h
    · subst h
      exact le_trans (minFold_le_init _ _ _) (Nat.min_le_right _ _)
    · exact ih h _

theorem minFold_cases {α : Type} (c : α → Nat) (l : List α) :
    ∀ a, l.foldl (fun m f => min m (c f)) a = a ∨
      ∃ f ∈ l, l.foldl (fun m f => min m (c f)) a = c f := by
  induction l with
  | nil => intro a; left; rfl
  | cons x rest ih =>
    intro a
    simp only [List.foldl_cons]
    rcases ih (min a (c x)) with h | ⟨f, hf, h⟩
    · rcases Nat.le_total a (c x) with hle | hle
      · left; rw [h]; exact min_eq_left hle
      · right
        exact ⟨x, List.mem_cons_self .., by rw [h]; exact min_eq_right hle⟩
    · right; exact ⟨f, List.mem_cons_of_mem _ hf, h⟩

theorem dpStep_fst (tt : List (List (List (Nat × Nat)))) (d toSt state : Nat)
    (g : Nat → Nat) (acc : Nat × Option (Nat × Nat)) (f : Nat)
    (hacc : acc.1 ≤ mOf tt) :
    (dpStep tt d toSt state g acc f).1 = min acc.1 (dpCand tt d toSt state g f) := by
  by_cases h1 : f = toSt
  · simp [dpStep, dpCand, h1]
    omega
  by_cases h2 : state - (1 <<< toSt) ≠ 0 ∧ (state - (1 <<< toSt)).testBit f = false
  · simp [dpStep, dpCand, h1, h2]
    omega
  by_cases h3 : mOf tt ≤ g f + d
  · simp [dpStep, dpCand, h1, h2, h3]
    omega
  by_cases h4 : (ttGet tt f toSt (g f + d)).2 < acc.1
  · simp [dpStep, dpCand, h1, h2, h3, h4]
    omega
  · simp [dpStep, dpCand, h1, h2, h3, h4]
    omega

theorem dpFold_fst (tt : List (List (List (Nat × Nat)))) (d toSt state : Nat)
    (g : Nat → Nat) (l : List Nat) (acc : Nat × Option (Nat × Nat))
    (hacc : acc.1 ≤ mOf tt) :
    ((l.foldl (dpStep tt d toSt state g) acc)).1 =
      l.foldl (fun m f => min m (dpCand tt d toSt state g f)) acc.1 := by
  induction l generalizing acc with
  | nil => simp
  | cons f rest ih =>
    simp only [List.foldl_cons]
    rw [ih _ (le_trans (dpStep_fst_le ..) hacc), dpStep_fst _ _ _ _ _ _ _ hacc]

theorem dpStep_parentOK (tt : List (List (List (Nat × Nat)))) (d toSt state : Nat)
    (g : Nat → Nat) (acc : Nat × Option (Nat × Nat)) (f : Nat)
    (hacc : acc.1 ≤ mOf tt)
    (hOK : DpParentOK tt d toSt state g acc) :
    DpParentOK tt d toSt state g (dpStep tt d toSt state g acc f) ∧
      (dpStep tt d toSt state g acc f).1 ≤ mOf tt := by
  refine ⟨?_, le_trans (dpStep_fst_le ..) hacc⟩
  by_cases h1 : f = toSt
  · simpa [dpStep, h1] using hOK
  by_cases h2 : state - (1 <<< toSt) ≠ 0 ∧ (state - (1 <<< toSt)).testBit f = false
  · simpa [dpStep, h1, h2] using hOK
  by_cases h3 : mOf tt ≤ g f + d
  · simpa [dpStep, h1, h2, h3] using hOK
  by_cases h4 : (ttGet tt f toSt (g f + d)).2 < acc.1
  · have hstep : dpStep tt d toSt state g acc f =
        ((ttGet tt f toSt (g f + d)).2, some (f, state - (1 <<< toSt))) := by
      simp [dpStep, h1, h2, h3, h4]
    intro f' fs' hsome
    rw [hstep] at hsome ⊢
    simp only [Option.some.injEq, Prod.mk.injEq] at hsome
    obtain ⟨hfe, hfse⟩ := hsome
    subst hfe
    subst hfse
    refine ⟨rfl, h1, ?_, by omega, rfl, by dsimp only; omega⟩
    by_cases h5 : state - (1 <<< toSt) = 0
    · exact Or.inl h5
    · refine Or.inr ?_
      cases hb : (state - (1 <<< toSt)).testBit f
      · exact absurd ⟨h5, hb⟩ h2
      · rfl
  · simpa [dpStep, h1, h2, h3, h4] using hOK

theorem dpFold_parentOK (tt : List (List (List (Nat × Nat)))) (d toSt state : Nat)
    (g : Nat → Nat) (l : List Nat) :
    ∀ acc, acc.1 ≤ mOf tt → DpParentOK tt d toSt state g acc →
    DpParentOK tt d toSt state g (l.foldl (dpStep tt d toSt state g) acc) := by
  induction l with
  | nil => intro acc _ hOK; simpa
  | cons f rest ih =>
    intro acc hacc hOK
    simp only [List.foldl_cons]
    have hstep := dpStep_parentOK tt d toSt state g acc f hacc hOK
    exact ih _ hstep.2 hstep.1

theorem dpValue_le (tt : List (List (List (Nat × Nat)))) (start d toSt state : Nat) :
    dpValue tt start d toSt state ≤ mOf tt := by
  unfold dpValue
  by_cases h0 : state = 0
  · subst h0
    rw [dpP_zero]
    by_cases hs : toSt = start <;> simp [hs]
  cases hb : state.testBit toSt
  · rw [dpP_not_mem _ _ _ _ _ h0 hb]
  · rw [dpP_mem _ _ _ _ _ h0 hb]
    exact dpFold_fst_le ..

theorem dpParent_spec (tt : List (List (List (Nat × Nat)))) (start d toSt state : Nat)
    (h0 : state ≠ 0) (hb : state.testBit toSt = true) (f fs' : Nat)
    (hp : dpParent tt start d toSt state = some (f, fs')) :
    fs' = state - (1 <<< toSt) ∧ f ≠ toSt ∧
    (state - (1 <<< toSt) = 0 ∨ (state - (1 <<< toSt)).testBit f = true) ∧
    dpValue tt start d f (state - (1 <<< toSt)) + d < mOf tt ∧
    dpValue tt start d toSt state =
      (ttGet tt f toSt (dpValue tt start d f (state - (1 <<< toSt)) + d)).2 ∧
    dpValue tt start d toSt state < mOf tt := by
  have hOK := dpFold_parentOK tt d toSt state
    (fun f => (dpP tt start d f (state - (1 <<< toSt))).1) (List.range (nOf tt))
    (mOf tt, none) (le_refl _) (by intro f fs' h; simp at h)
  unfold dpParent at hp
  rw [dpP_mem _ _ _ _ _ h0 hb] at hp
  have hres := hOK f fs' hp
  unfold dpValue
  rw [dpP_mem _ _ _ _ _ h0 hb]
  exact hres

theorem dpParent_none_val (tt : List (List (List (Nat × Nat)))) (start d toSt state : Nat)
    (h0 : state ≠ 0) (hb : state.testBit toSt = true)
    (hp : dpParent tt start d toSt state = none) :
    dpValue tt start d toSt state = mOf tt := by
  unfold dpParent at hp
  unfold dpValue
  rw [dpP_mem _ _ _ _ _ h0 hb] at hp ⊢
  rw [dpFold_none _ _ _ _ _ _ _ hp]

theorem dpParent_none_of_sentinel (tt : List (List (List (Nat × Nat))))
    (start d toSt state : Nat)
    (hv : dpValue tt start d toSt state = mOf tt) :
    dpParent tt start d toSt state = none := by
  by_cases h0 : state = 0
  · subst h0
    unfold dpParent
    rw [dpP_zero]
  cases hb : state.testBit toSt
  · unfold dpParent
    rw [dpP_not_mem _ _ _ _ _ h0 hb]
  · cases hp : dpParent tt start d toSt state with
    | none => rfl
    | some p =>
      exfalso
      have := (dpParent_spec tt start d toSt state h0 hb p.1 p.2 (by rw [hp])).2.2.2.2.2
      omega

theorem reconstruct_of_parent_none (tt : List (List (List (Nat × Nat))))
    (start d toSt state : Nat)
    (hp : dpParent tt start d toSt state = none) :
    ∀ fuel, reconstruct tt start d fuel toSt state = [] := by
  intro fuel
  cases fuel with
  | zero => rfl
  | succ k =>
    unfold reconstruct
    rw [hp]

theorem fillFrom_eq (trains : List (List Section)) (f toSt t : Nat) :
    fillFrom trains f toSt t =
      if t + 1 < maxTime trains then
        pairMin (step1 trains f toSt t) (fillFrom trains f toSt (t + 1))
      else step1 trains f toSt t := by
  unfold fillFrom
  by_cases h : t + 1 < maxTime trains
  · rw [if_pos h]
    have hk : maxTime trains - t = (maxTime trains - (t + 1)) + 1 := by omega
    rw [hk]
    simp [fillAux, h]
  · rw [if_neg h]
    cases hk : maxTime trains - t with
    | zero => rfl
    | succ k => simp [fillAux, h]

theorem rangeMap_getD {α : Type} (g : Nat → α) (k i : Nat) (dflt : α)
    (h : i < k) : ((List.range k).map g).getD i dflt = g i := by
  rw [List.getD_eq_getElem?_getD, List.getElem?_map, List.getElem?_range h]
  rfl

theorem convert_get (trains : List (List Section)) (f toSt t : Nat)
    (hf : f < nStations trains) (ht : toSt < nStations trains)
    (htt : t < maxTime trains) :
    ttGet (convert_to_timetable trains) f toSt t = fillFrom trains f toSt t := by
  unfold ttGet convert_to_timetable
  rw [rangeMap_getD _ _ _ _ hf, rangeMap_getD _ _ _ _ ht, rangeMap_getD _ _ _ _ htt]

/-! ### Claims C3 and C7: behaviour of the optimizer without a tour -/

/-- C3 (amended): when no closed tour exists within the horizon, the DP
completes with the full-set state still sentinel-valued and
`find_optimal_route_by_bit_dp` returns the empty route; no exception of
any kind is raised (the source has no `UnreachableError`). -/
theorem claim_C3 (tt : List (List (List (Nat × Nat)))) (start d : Nat)
    (h : dpValue tt start d start (1 <<< nOf tt - 1) = mOf tt) :
    find_optimal_route_by_bit_dp tt start d = [] := by
  unfold find_optimal_route_by_bit_dp
  rw [reconstruct_of_parent_none tt start d start _
    (dpParent_none_of_sentinel _ _ _ _ _ h) _]
  rfl

/-- C3 witness: on the all-sentinel two-station timetable the optimizer
returns the empty route. -/
theorem claim_C3_witness : find_optimal_route_by_bit_dp exUnreachable 0 0 = [] :=
  claim_C3 exUnreachable 0 0 (by decide)

/-- C3 counterexample: on the all-sentinel two-station timetable no
closed tour exists, the DP completes with the full-set state equal to the
sentinel, and the call nevertheless returns normally (with the empty
route) instead of raising `UnreachableError`: the claimed error does not
exist in the code. -/
theorem claim_C3_counterexample :
    dpValue exUnreachable 0 0 0 (1 <<< nOf exUnreachable - 1) = mOf exUnreachable ∧
      find_optimal_route_by_bit_dp exUnreachable 0 0 = [] := by
  constructor
  · decide
  · decide

/-- C7 (amended): on a one-station timetable the optimizer returns the
empty route, but the full-set DP value is the sentinel `mOf tt`, not 0:
the DP never assigns the one-station state a finite time. -/
theorem claim_C7 (tt : List (List (List (Nat × Nat)))) (d : Nat)
    (h : nOf tt = 1) :
    find_optimal_route_by_bit_dp tt 0 d = [] ∧
      dpValue tt 0 d 0 (1 <<< nOf tt - 1) = mOf tt := by
  have hfull : 1 <<< nOf tt - 1 = 1 := by rw [h]; rfl
  have hval : dpP tt 0 d 0 1 = (mOf tt, none) := by
    rw [dpP_mem tt 0 d 0 1 (by omega) (by decide), h]
    show List.foldl _ _ [0] = _
    simp [dpStep]
  constructor
  · unfold find_optimal_route_by_bit_dp
    rw [hfull]
    rw [reconstruct_of_parent_none tt 0 d 0 1 (by unfold dpParent; rw [hval]) _]
    rfl
  · rw [hfull]
    unfold dpValue
    rw [hval]

/-- C7 witness: the concrete one-station timetable gives the empty route
and a sentinel-valued full set. -/
theorem claim_C7_witness :
    find_optimal_route_by_bit_dp exOneStation 0 5 = [] ∧
      dpValue exOneStation 0 5 0 (1 <<< nOf exOneStation - 1) = mOf exOneStation :=
  claim_C7 exOneStation 5 (by decide)

/-- C7 counterexample: on the one-station timetable with horizon 2 the
route is empty as claimed, but the total tour time read off the DP
(`dp[start][fullSet]`) is the sentinel 2, not 0. -/
theorem claim_C7_counterexample :
    find_optimal_route_by_bit_dp exOneStation 0 5 = [] ∧
      dpValue exOneStation 0 5 0 (1 <<< nOf exOneStation - 1) = 2 ∧
      (2 : Nat) ≠ 0 := by
  refine ⟨by decide, by decide, by decide⟩

/-! ### Claim C4: there is no input validation -/

/-- C4 (amended): no `InvalidTripError` exists in the code and the
builder performs no trip validation.  On every input on which its
passes run to completion — at least one leg, station ids inside the
allocated range, departure minutes below the horizon; time-ordering of
the legs is *not* required, so malformed trips such as `exMalformed`
are included — it runs the construction passes and returns a timetable
of the usual dimensions, rejecting nothing.  (Outside that domain the
source fails only with generic `ValueError`/`IndexError` from the
passes themselves, never with a validation error; those library error
paths are outside this error-free embedding, hence the hypotheses.) -/
theorem claim_C4 (trains : List (List Section))
    (hsec : sectionsOf trains ≠ [])
    (hrange : ∀ s ∈ sectionsOf trains, s.from_station < nStations trains ∧
      s.to_station < nStations trains ∧ s.from_time < maxTime trains) :
    (convert_to_timetable trains).length = nStations trains ∧
      (∀ f, f < nStations trains →
        ((convert_to_timetable trains).getD f []).length = nStations trains) ∧
      (∀ f toSt, f < nStations trains → toSt < nStations trains →
        (((convert_to_timetable trains).getD f []).getD toSt []).length =
          maxTime trains) := by
  refine ⟨by simp [convert_to_timetable], ?_, ?_⟩
  · intro f hf
    unfold convert_to_timetable
    rw [rangeMap_getD _ _ _ _ hf]
    simp
  · intro f toSt hf ht
    unfold convert_to_timetable
    rw [rangeMap_getD _ _ _ _ hf, rangeMap_getD _ _ _ _ ht]
    simp

/-- C4 witness: the malformed input has legs, in-range stations and
in-horizon departures, and the builder returns a full-sized timetable
on it. -/
theorem claim_C4_witness :
    sectionsOf exMalformed ≠ [] ∧
    (∀ s ∈ sectionsOf exMalformed, s.from_station < nStations exMalformed ∧
      s.to_station < nStations exMalformed ∧
      s.from_time < maxTime exMalformed) ∧
    (((convert_to_timetable exMalformed).getD 0 []).getD 1 []).length =
      maxTime exMalformed :=
  ⟨by decide, by decide,
    (claim_C4 exMalformed (by decide) (by decide)).2.2 0 1 (by decide)
      (by decide)⟩

/-- C4 counterexample: `exMalformed` is a malformed input in the sense of
the spec (its trip is not time-ordered), yet the builder accepts it, runs
both passes and produces an ordinary timetable - it even registers the
connection of the trip's first leg.  Nothing is rejected at construction
time. -/
theorem claim_C4_counterexample :
    ¬ (∀ tr ∈ exMalformed, SpecTripOK tr) ∧
      (convert_to_timetable exMalformed).length = 2 ∧
      ttGet (convert_to_timetable exMalformed) 0 1 3 = (3, 5) := by
  refine ⟨by decide, by decide, by decide⟩

/-! ### Claim C10: station counting by distinct destinations -/

/-- C10 (amended): the builder sizes its arrays by the number of distinct
destination stations, so whenever some station occurs only as an origin
the arrays are strictly smaller than the true station range (first
conjunct, universally).  The Step-1 write `timetable[section.from_station]`
can then index out of bounds, and does so on the concrete input
`exOriginOOB` (second conjunct), though not on every such input; the
builder is only safe when every station occurring in the input also
occurs as a destination. -/
theorem claim_C10 :
    (∀ trains x, OriginOnly trains x →
      nStations trains < (allStations trains).length) ∧
      (OriginOnly exOriginOOB 1 ∧ ¬ Step1WritesInBounds exOriginOOB) := by
  constructor
  · intro trains x hx
    obtain ⟨hin, hout⟩ := hx
    have hdest : nStations trains = (destStations trains).toFinset.card := by
      rw [List.card_toFinset]
      rfl
    have hall : (allStations trains).length =
        (originStations trains ++ destStations trains).toFinset.card := by
      rw [List.card_toFinset]
      rfl
    rw [hdest, hall]
    apply Finset.card_lt_card
    constructor
    · intro y hy
      rw [List.mem_toFinset] at hy ⊢
      exact List.mem_append_right _ hy
    · intro hsub
      have hx2 : x ∈ (originStations trains ++ destStations trains).toFinset := by
        rw [List.mem_toFinset]
        exact List.mem_append_left _ hin
      have := hsub hx2
      rw [List.mem_toFinset] at this
      exact hout this
  · exact ⟨by decide, by decide⟩

/-- C10 witness: on the concrete input whose station 1 never occurs as a
destination, the allocated station count 1 is smaller than the true
station range of size 2. -/
theorem claim_C10_witness :
    nStations exOriginOOB < (allStations exOriginOOB).length :=
  claim_C10.1 exOriginOOB 1 (by decide)

/-- C10 counterexample: on `exOriginInBounds`, station 0 occurs only as
an origin (so the claim's hypothesis holds), yet every Step-1 write
`timetable[section.from_station]` stays inside the allocated bounds;
the claim's universally quantified out-of-bounds consequence is false. -/
theorem claim_C10_counterexample :
    OriginOnly exOriginInBounds 0 ∧ Step1WritesInBounds exOriginInBounds := by
  refine ⟨by decide, by decide⟩

/-! ### Claim C8: the optimum is monotone in the dwell time -/

theorem shiftLeft_le_of_testBit (state toSt : Nat) (hb : state.testBit toSt = true) :
    1 <<< toSt ≤ state := by
  rw [Nat.one_shiftLeft]
  by_contra hc
  push_neg at hc
  simp [Nat.testBit_eq_false_of_lt hc] at hb

theorem shiftLeft_pos (toSt : Nat) : 0 < 1 <<< toSt := by
  rw [Nat.one_shiftLeft]
  exact Nat.two_pow_pos _

theorem ttGet_mono_le (tt : List (List (List (Nat × Nat))))
    (hMono : TimetableMono tt) (f toSt : Nat) (hf : f < nOf tt)
    (ht : toSt < nOf tt) (t t' : Nat) (hle : t ≤ t') (hlt : t' < mOf tt) :
    (ttGet tt f toSt t).2 ≤ (ttGet tt f toSt t').2 := by
  induction t' with
  | zero =>
    have h0 : t = 0 := by omega
    rw [h0]
  | succ u ih =>
    rcases Nat.lt_or_ge t (u + 1) with hc | hc
    · exact le_trans (ih (by omega) (by omega))
        (hMono f hf toSt ht u (by omega) hlt)
    · have h0 : t = u + 1 := by omega
      rw [h0]

theorem minFold_mono {α : Type} (c1 c2 : α → Nat) (l : List α)
    (hpt : ∀ f ∈ l, c1 f ≤ c2 f) :
    ∀ a1 a2, a1 ≤ a2 →
      l.foldl (fun m f => min m (c1 f)) a1 ≤ l.foldl (fun m f => min m (c2 f)) a2 := by
  induction l with
  | nil => intro a1 a2 h; simpa
  | cons x rest ihl =>
    intro a1 a2 h
    simp only [List.foldl_cons]
    apply ihl (fun f hf => hpt f (List.mem_cons_of_mem _ hf))
    have := hpt x (List.mem_cons_self ..)
    omega

theorem candCompare (tt : List (List (List (Nat × Nat)))) (f toSt : Nat)
    (hfn : f < nOf tt) (htoSt : toSt < nOf tt)
    (hMono : TimetableMono tt) (hBnd : TimetableBounded tt)
    (v1 v2 d1 d2 : Nat) (hv : v1 ≤ v2) (hd : d1 ≤ d2) :
    (if mOf tt ≤ v1 + d1 then mOf tt else (ttGet tt f toSt (v1 + d1)).2) ≤
      (if mOf tt ≤ v2 + d2 then mOf tt else (ttGet tt f toSt (v2 + d2)).2) := by
  by_cases hg3 : mOf tt ≤ v1 + d1
  · rw [if_pos hg3, if_pos (by omega)]
  rw [if_neg hg3]
  by_cases hg4 : mOf tt ≤ v2 + d2
  · rw [if_pos hg4]
    exact hBnd f hfn toSt htoSt _ (by omega)
  · rw [if_neg hg4]
    exact ttGet_mono_le tt hMono f toSt hfn htoSt _ _ (by omega) (by omega)

theorem dp_mono_dwell (tt : List (List (List (Nat × Nat)))) (start d1 d2 : Nat)
    (hMono : TimetableMono tt) (hBnd : TimetableBounded tt) (hd : d1 ≤ d2) :
    ∀ state toSt, toSt < nOf tt →
      dpValue tt start d1 toSt state ≤ dpValue tt start d2 toSt state := by
  intro state
  induction state using Nat.strong_induction_on with
  | _ state ih =>
    intro toSt htoSt
    by_cases h0 : state = 0
    · subst h0
      unfold dpValue
      rw [dpP_zero, dpP_zero]
    cases hb : state.testBit toSt with
    | false =>
      unfold dpValue
      rw [dpP_not_mem _ _ _ _ _ h0 hb, dpP_not_mem _ _ _ _ _ h0 hb]
    | true =>
      unfold dpValue
      rw [dpP_mem _ _ _ _ _ h0 hb, dpP_mem _ _ _ _ _ h0 hb]
      rw [dpFold_fst _ _ _ _ _ _ _ (le_refl _), dpFold_fst _ _ _ _ _ _ _ (le_refl _)]
      have hfs : state - (1 <<< toSt) < state := by
        have h1 := shiftLeft_le_of_testBit state toSt hb
        have h2 := shiftLeft_pos toSt
        omega
      apply minFold_mono
      · intro f hfmem
        have hfn : f < nOf tt := List.mem_range.mp hfmem
        unfold dpCand
        by_cases hg1 : f = toSt
        · rw [if_pos hg1, if_pos hg1]
        rw [if_neg hg1, if_neg hg1]
        by_cases hg2 : state - (1 <<< toSt) ≠ 0 ∧
            (state - (1 <<< toSt)).testBit f = false
        · rw [if_pos hg2, if_pos hg2]
        rw [if_neg hg2, if_neg hg2]
        exact candCompare tt f toSt hfn htoSt hMono hBnd _ _ d1 d2
          (ih _ hfs f hfn) hd
      · exact le_refl _

/-- C8: for a fixed timetable satisfying the spec's Timetable invariants
(arrivals monotone in the departure minute and bounded by the horizon)
and a fixed start station, whenever `d1 ≤ d2` are dwell values for which
closed tours exist, the optimal total tour time computed with dwell `d1`
is at most the one computed with dwell `d2`. -/
theorem claim_C8 (tt : List (List (List (Nat × Nat)))) (start d1 d2 : Nat)
    (hstart : start < nOf tt)
    (hMono : TimetableMono tt) (hBnd : TimetableBounded tt) (hd : d1 ≤ d2)
    (hEx1 : dpValue tt start d1 start (1 <<< nOf tt - 1) < mOf tt)
    (hEx2 : dpValue tt start d2 start (1 <<< nOf tt - 1) < mOf tt) :
    dpValue tt start d1 start (1 <<< nOf tt - 1) ≤
      dpValue tt start d2 start (1 <<< nOf tt - 1) :=
  dp_mono_dwell tt start d1 d2 hMono hBnd hd _ start hstart

/-- C8 witness: on the concrete two-station timetable with dwells 1 and
2 both tours exist and the optimum is monotone. -/
theorem claim_C8_witness :
    dpValue exSmallTT 0 1 0 (1 <<< nOf exSmallTT - 1) ≤
      dpValue exSmallTT 0 2 0 (1 <<< nOf exSmallTT - 1) :=
  claim_C8 exSmallTT 0 1 2 (by decide) (by decide) (by decide) (by decide)
    (by decide) (by decide)

/-! ### Bitmask arithmetic -/

theorem testBit_sub_two_pow :
    ∀ (toSt state : Nat), state.testBit toSt = true →
      ∀ i, (state - 2 ^ toSt).testBit i =
        (state.testBit i && !(toSt == i)) := by
  intro toSt
  induction toSt with
  | zero =>
    intro state hb i
    have hodd : state % 2 = 1 := by
      have := Nat.testBit_zero state
      rw [this] at hb
      simpa using hb
    cases i with
    | zero =>
      rw [Nat.testBit_zero, Nat.testBit_zero]
      simp only [pow_zero]
      have : (state - 1) % 2 = 0 := by omega
      simp [this, hodd]
    | succ j =>
      rw [Nat.testBit_succ, Nat.testBit_succ]
      have hdiv : (state - 1) / 2 = state / 2 := by omega
      rw [pow_zero, hdiv]
      simp
  | succ k ih =>
    intro state hb i
    have hb' : (state / 2).testBit k = true := by
      rw [← Nat.testBit_succ]
      exact hb
    have hle : 2 ^ (k + 1) ≤ state := by
      by_contra hc
      push_neg at hc
      rw [Nat.testBit_eq_false_of_lt hc] at hb
      exact Bool.false_ne_true hb
    have hpk : 2 ^ (k + 1) = 2 * 2 ^ k := by ring
    cases i with
    | zero =>
      rw [Nat.testBit_zero, Nat.testBit_zero]
      have : (state - 2 ^ (k + 1)) % 2 = state % 2 := by omega
      simp [this]
    | succ j =>
      rw [Nat.testBit_succ, Nat.testBit_succ]
      have hdiv : (state - 2 ^ (k + 1)) / 2 = state / 2 - 2 ^ k := by
        rw [hpk]
        omega
      rw [hdiv, ih (state / 2) hb' j]
      simp

theorem testBit_maskOf (l : List Nat) (i : Nat) :
    (maskOf l).testBit i = decide (i ∈ l) := by
  induction l with
  | nil => simp [maskOf]
  | cons x xs ih =>
    show ((maskOf xs) ||| (1 <<< x)).testBit i = _
    rw [Nat.testBit_or, ih, Nat.one_shiftLeft, Nat.testBit_two_pow]
    by_cases hx : x = i
    · subst hx
      simp
    · simp [hx, Ne.symm hx]

theorem maskOf_append_bit (l : List Nat) (x : Nat) :
    (maskOf (l ++ [x])).testBit x = true := by
  rw [testBit_maskOf]
  simp

theorem maskOf_append_sub (l : List Nat) (x : Nat) (hx : x ∉ l) :
    maskOf (l ++ [x]) - 2 ^ x = maskOf l := by
  apply Nat.eq_of_testBit_eq
  intro i
  rw [testBit_sub_two_pow x _ (maskOf_append_bit l x) i, testBit_maskOf,
    testBit_maskOf]
  by_cases hix : i = x
  · subst hix
    simp [hx]
  · simp [List.mem_append, hix, Ne.symm hix]

theorem maskOf_append_ne_zero (l : List Nat) (x : Nat) :
    maskOf (l ++ [x]) ≠ 0 := by
  intro h
  have hb := maskOf_append_bit l x
  rw [h, Nat.zero_testBit] at hb
  exact Bool.false_ne_true hb

theorem stepTime_le_M (tt : List (List (List (Nat × Nat)))) (d cur next t : Nat)
    (hBnd : TimetableBounded tt) (hcur : cur < nOf tt) (hnext : next < nOf tt) :
    stepTime tt d cur next t ≤ mOf tt := by
  unfold stepTime
  by_cases h : mOf tt ≤ t + d
  · rw [if_pos h]
  · rw [if_neg h]
    exact hBnd cur hcur next hnext _ (by omega)

theorem stepTime_mono (tt : List (List (List (Nat × Nat)))) (d cur next : Nat)
    (hMono : TimetableMono tt) (hBnd : TimetableBounded tt)
    (hcur : cur < nOf tt) (hnext : next < nOf tt) (t t' : Nat) (hle : t ≤ t') :
    stepTime tt d cur next t ≤ stepTime tt d cur next t' := by
  by_cases h' : mOf tt ≤ t' + d
  · have := stepTime_le_M tt d cur next t hBnd hcur hnext
    unfold stepTime
    rw [if_pos h']
    unfold stepTime at this
    exact this
  · unfold stepTime
    rw [if_neg h', if_neg (by omega)]
    exact ttGet_mono_le tt hMono cur next hcur hnext _ _ (by omega) (by omega)

theorem walkArr_le_M (tt : List (List (List (Nat × Nat)))) (d : Nat)
    (hBnd : TimetableBounded tt) :
    ∀ (order : List Nat) (cur t : Nat), (∀ x ∈ order, x < nOf tt) →
      cur < nOf tt → t ≤ mOf tt → walkArr tt d cur t order ≤ mOf tt := by
  intro order
  induction order with
  | nil => intro cur t _ _ ht; exact ht
  | cons x xs ih =>
    intro cur t hmem hcur ht
    have hx : x < nOf tt := (hmem x (List.mem_cons_self ..))
    exact ih x _ (fun y hy => hmem y (List.mem_cons_of_mem _ hy)) hx
      (stepTime_le_M tt d cur x t hBnd hcur hx)

theorem walkArr_mono (tt : List (List (List (Nat × Nat)))) (d : Nat)
    (hMono : TimetableMono tt) (hBnd : TimetableBounded tt) :
    ∀ (order : List Nat) (cur t t' : Nat), (∀ x ∈ order, x < nOf tt) →
      cur < nOf tt → t ≤ t' →
      walkArr tt d cur t order ≤ walkArr tt d cur t' order := by
  intro order
  induction order with
  | nil => intro cur t t' _ _ h; exact h
  | cons x xs ih =>
    intro cur t t' hmem hcur hle
    have hx : x < nOf tt := (hmem x (List.mem_cons_self ..))
    exact ih x _ _ (fun y hy => hmem y (List.mem_cons_of_mem _ hy)) hx
      (stepTime_mono tt d cur x hMono hBnd hcur hx t t' hle)

theorem walkArr_append_last (tt : List (List (List (Nat × Nat)))) (d : Nat) :
    ∀ (l : List Nat) (cur t x : Nat),
      walkArr tt d cur t (l ++ [x]) =
        stepTime tt d (l.getLastD cur) x (walkArr tt d cur t l) := by
  intro l
  induction l with
  | nil => intro cur t x; rfl
  | cons y ys ih =>
    intro cur t x
    show walkArr tt d y (stepTime tt d cur y t) (ys ++ [x]) = _
    rw [ih y (stepTime tt d cur y t) x, List.getLastD_cons]
    rfl

theorem simulateFrom_eq_walk (tt : List (List (List (Nat × Nat)))) (d start : Nat) :
    ∀ (xs : List Nat) (cur t : Nat),
      simulateFrom tt d start cur t xs =
        stepTime tt d (xs.getLastD cur) start (walkArr tt d cur t xs) := by
  intro xs
  induction xs with
  | nil => intro cur t; rfl
  | cons y ys ih =>
    intro cur t
    show simulateFrom tt d start y (stepTime tt d cur y t) ys = _
    rw [ih y (stepTime tt d cur y t), List.getLastD_cons]
    rfl

theorem tourTime_eq_walk (tt : List (List (List (Nat × Nat)))) (d start : Nat)
    (x : Nat) (xs : List Nat) :
    tourTime tt d start (x :: xs) =
      stepTime tt d ((x :: xs).getLastD start) start
        (walkArr tt d start 0 (x :: xs)) := by
  show simulateFrom tt d start x (stepTime tt d start x 0) xs = _
  rw [simulateFrom_eq_walk tt d start xs x (stepTime tt d start x 0),
    List.getLastD_cons]
  rfl

theorem le_minFold {α : Type} (c : α → Nat) (l : List α) :
    ∀ (a x : Nat), x ≤ a → (∀ y ∈ l, x ≤ c y) →
      x ≤ l.foldl (fun m f => min m (c f)) a := by
  induction l with
  | nil => intro a x h _; exact h
  | cons y ys ih =>
    intro a x h hall
    simp only [List.foldl_cons]
    apply ih _ x (le_min h (hall y (List.mem_cons_self ..)))
    exact fun z hz => hall z (List.mem_cons_of_mem _ hz)

theorem nodup_concat_parts (l : List Nat) (x : Nat) (h : (l ++ [x]).Nodup) :
    l.Nodup ∧ x ∉ l := by
  rw [List.nodup_append] at h
  exact ⟨h.1, fun hx => h.2.2 hx (by simp)⟩

theorem dp_le_walk (tt : List (List (List (Nat × Nat)))) (start d : Nat)
    (hstart : start < nOf tt)
    (hMono : TimetableMono tt) (hBnd : TimetableBounded tt) :
    ∀ (l : List Nat) (x : Nat), (l ++ [x]).Nodup →
      (∀ y ∈ l ++ [x], y < nOf tt ∧ y ≠ start) →
      dpValue tt start d x (maskOf (l ++ [x])) ≤
        walkArr tt d start 0 (l ++ [x]) := by
  intro l
  induction l using List.reverseRecOn with
  | nil =>
    intro x _ hmem
    obtain ⟨hxn, hxs⟩ := hmem x (by simp)
    have hb := maskOf_append_bit [] x
    have h0 := maskOf_append_ne_zero [] x
    have hfs : maskOf ([] ++ [x]) - (1 <<< x) = 0 := by
      rw [Nat.one_shiftLeft, maskOf_append_sub [] x (by simp)]
      rfl
    unfold dpValue
    rw [dpP_mem _ _ _ _ _ h0 hb, dpFold_fst _ _ _ _ _ _ _ (le_refl _)]
    refine le_trans (minFold_le_mem _ (List.range (nOf tt)) start
      (List.mem_range.mpr hstart) (mOf tt)) ?_
    unfold dpCand
    rw [if_neg (fun h => hxs h.symm), hfs]
    rw [if_neg (by simp)]
    have hg : (dpP tt start d start (0 : Nat)).1 = 0 := by
      rw [dpP_zero]
      simp
    show (if mOf tt ≤ (dpP tt start d start 0).1 + d then mOf tt
      else (ttGet tt start x ((dpP tt start d start 0).1 + d)).2) ≤
        walkArr tt d start 0 ([] ++ [x])
    rw [hg]
    exact le_of_eq rfl
  | append_singleton l y ih =>
    intro x hnd hmem
    obtain ⟨hnd', hx⟩ := nodup_concat_parts (l ++ [y]) x hnd
    obtain ⟨hxn, hxs⟩ := hmem x (by simp)
    obtain ⟨hyn, hys⟩ := hmem y (by simp)
    have hb := maskOf_append_bit (l ++ [y]) x
    have h0 := maskOf_append_ne_zero (l ++ [y]) x
    have hfs : maskOf ((l ++ [y]) ++ [x]) - (1 <<< x) = maskOf (l ++ [y]) := by
      rw [Nat.one_shiftLeft, maskOf_append_sub (l ++ [y]) x hx]
    have hfsy : (maskOf (l ++ [y])).testBit y = true := maskOf_append_bit l y
    have hyx : y ≠ x := fun h => hx (h ▸ (by simp : y ∈ l ++ [y]))
    unfold dpValue
    rw [dpP_mem _ _ _ _ _ h0 hb, dpFold_fst _ _ _ _ _ _ _ (le_refl _)]
    refine le_trans (minFold_le_mem _ (List.range (nOf tt)) y
      (List.mem_range.mpr hyn) (mOf tt)) ?_
    unfold dpCand
    rw [if_neg hyx, hfs]
    rw [if_neg (by simp [hfsy])]
    show stepTime tt d y x (dpValue tt start d y (maskOf (l ++ [y]))) ≤
      walkArr tt d start 0 ((l ++ [y]) ++ [x])
    rw [walkArr_append_last tt d (l ++ [y]) start 0 x, List.getLastD_concat]
    exact stepTime_mono tt d y x hMono hBnd hyn hxn _ _
      (ih y hnd' (fun z hz => hmem z (List.mem_append_left _ hz)))

theorem goodOrder_exists (n state toSt : Nat) (hb : state.testBit toSt = true)
    (hbits : ∀ i, state.testBit i = true → i < n) :
    ∃ l, (l ++ [toSt]).Nodup ∧
      (∀ y ∈ l ++ [toSt], state.testBit y = true) ∧
      maskOf (l ++ [toSt]) = state := by
  refine ⟨(List.range n).filter (fun i => state.testBit i && !(i == toSt)),
    ?_, ?_, ?_⟩
  · rw [List.nodup_append]
    refine ⟨(List.nodup_range n).filter _, List.nodup_singleton _, ?_⟩
    intro y hy hy2
    rw [List.mem_singleton] at hy2
    subst hy2
    rw [List.mem_filter] at hy
    simp at hy
  · intro y hy
    rw [List.mem_append] at hy
    rcases hy with hy | hy
    · rw [List.mem_filter] at hy
      have := hy.2
      simp at this
      exact this.1
    · rw [List.mem_singleton] at hy
      subst hy
      exact hb
  · apply Nat.eq_of_testBit_eq
    intro i
    rw [testBit_maskOf]
    by_cases hi : i = toSt
    · subst hi
      simp [hb]
    · cases hsi : state.testBit i
      · simp [List.mem_filter, hsi, hi]
      · simp only [List.mem_append, List.mem_filter, List.mem_singleton,
          List.mem_range, hsi, hi]
        simp [hbits i hsi, hi]

theorem dp_achieved (tt : List (List (List (Nat × Nat)))) (start d : Nat)
    (hstart : start < nOf tt)
    (hMono : TimetableMono tt) (hBnd : TimetableBounded tt) :
    ∀ state toSt, state ≠ 0 → state.testBit toSt = true →
      (∀ i, state.testBit i = true → i < nOf tt ∧ i ≠ start) →
      ∃ l, (l ++ [toSt]).Nodup ∧
        (∀ y ∈ l ++ [toSt], y < nOf tt ∧ y ≠ start) ∧
        maskOf (l ++ [toSt]) = state ∧
        walkArr tt d start 0 (l ++ [toSt]) ≤ dpValue tt start d toSt state := by
  intro state
  induction state using Nat.strong_induction_on with
  | _ state ih =>
    intro toSt h0 hb hbits
    by_cases hdpM : dpValue tt start d toSt state = mOf tt
    · obtain ⟨l, hnd, hmem, hmask⟩ :=
        goodOrder_exists (nOf tt) state toSt hb (fun i hi => (hbits i hi).1)
      refine ⟨l, hnd, fun y hy => hbits y (hmem y hy), hmask, ?_⟩
      rw [hdpM]
      apply walkArr_le_M tt d hBnd _ _ _
        (fun y hy => (hbits y (hmem y hy)).1) hstart (Nat.zero_le _)
    · have hlt : dpValue tt start d toSt state < mOf tt :=
        lt_of_le_of_ne (dpValue_le tt start d toSt state) hdpM
      have hdpfold : dpValue tt start d toSt state =
          (List.range (nOf tt)).foldl
            (fun m f => min m (dpCand tt d toSt state
              (fun f => (dpP tt start d f (state - (1 <<< toSt))).1) f))
            (mOf tt) := by
        unfold dpValue
        rw [dpP_mem _ _ _ _ _ h0 hb, dpFold_fst _ _ _ _ _ _ _ (le_refl _)]
      rcases minFold_cases _ (List.range (nOf tt)) (mOf tt) with hc | ⟨f, hf, hc⟩
      · rw [← hdpfold] at hc
        exact absurd hc hdpM
      rw [← hdpfold] at hc
      have hfn : f < nOf tt := List.mem_range.mp hf
      unfold dpCand at hc
      by_cases hg1 : f = toSt
      · rw [if_pos hg1] at hc
        exact absurd hc hdpM
      rw [if_neg hg1] at hc
      by_cases hg2 : state - (1 <<< toSt) ≠ 0 ∧
          (state - (1 <<< toSt)).testBit f = false
      · rw [if_pos hg2] at hc
        exact absurd hc hdpM
      rw [if_neg hg2] at hc
      beta_reduce at hc
      by_cases hg3 : mOf tt ≤ (dpP tt start d f (state - (1 <<< toSt))).1 + d
      · rw [if_pos hg3] at hc
        exact absurd hc hdpM
      rw [if_neg hg3] at hc
      push_neg at hg3
      by_cases hfs0 : state - (1 <<< toSt) = 0
      · -- state is exactly the one-bit mask of toSt, f must be start
        have hstate : state = 1 <<< toSt := by
          have h1 := shiftLeft_le_of_testBit state toSt hb
          omega
        have hfstart : f = start := by
          by_contra hne
          have hM : (dpP tt start d f (state - (1 <<< toSt))).1 = mOf tt := by
            rw [hfs0, dpP_zero]
            simp [hne]
          omega
        rw [hfstart] at hc hg3
        have hgz : (dpP tt start d start (state - (1 <<< toSt))).1 = 0 := by
          rw [hfs0, dpP_zero]
          simp
        rw [hgz] at hc hg3
        refine ⟨[], by simp, ?_, ?_, ?_⟩
        · intro y hy
          rw [List.nil_append, List.mem_singleton] at hy
          subst hy
          exact hbits y hb
        · apply Nat.eq_of_testBit_eq
          intro i
          rw [testBit_maskOf, hstate, Nat.one_shiftLeft, Nat.testBit_two_pow]
          by_cases hi : i = toSt
          · subst hi; simp
          · simp [hi, Ne.symm hi]
        · rw [hc]
          show stepTime tt d start toSt 0 ≤ _
          unfold stepTime
          rw [if_neg (by omega)]
      · -- recursive case: the parent state is non-empty
        have hfsb : (state - (1 <<< toSt)).testBit f = true := by
          rcases Bool.eq_false_or_eq_true ((state - (1 <<< toSt)).testBit f)
            with hbb | hbb
          · exact hbb
          · exact absurd ⟨hfs0, hbb⟩ hg2
        have hsub : ∀ i, (state - (1 <<< toSt)).testBit i =
            (state.testBit i && !(toSt == i)) := by
          intro i
          rw [Nat.one_shiftLeft]
          exact testBit_sub_two_pow toSt state hb i
        have hfslt : state - (1 <<< toSt) < state := by
          have h1 := shiftLeft_le_of_testBit state toSt hb
          have h2 := shiftLeft_pos toSt
          omega
        have hbits' : ∀ i, (state - (1 <<< toSt)).testBit i = true →
            i < nOf tt ∧ i ≠ start := by
          intro i hi
          rw [hsub i] at hi
          have := Bool.and_eq_true_iff.mp hi
          exact hbits i this.1
        obtain ⟨l', hnd', hmem', hmask', hwalk'⟩ :=
          ih _ hfslt f hfs0 hfsb hbits'
        have htoSt_notin : toSt ∉ l' ++ [f] := by
          intro hmem2
          have : (maskOf (l' ++ [f])).testBit toSt = true := by
            rw [testBit_maskOf]
            simpa using hmem2
          rw [hmask', hsub toSt] at this
          simp at this
        refine ⟨l' ++ [f], ?_, ?_, ?_, ?_⟩
        · rw [List.nodup_append]
          exact ⟨hnd', List.nodup_singleton _,
            fun y hy hy2 => htoSt_notin ((List.mem_singleton.mp hy2) ▸ hy)⟩
        · intro y hy
          rw [List.mem_append] at hy
          rcases hy with hy | hy
          · exact hmem' y hy
          · rw [List.mem_singleton] at hy
            subst hy
            exact hbits y hb
        · apply Nat.eq_of_testBit_eq
          intro i
          rw [testBit_maskOf]
          by_cases hi : i = toSt
          · subst hi
            simp [hb]
          · have : decide (i ∈ (l' ++ [f]) ++ [toSt]) =
                decide (i ∈ l' ++ [f]) := by
              simp [List.mem_append, hi]
            rw [this, ← testBit_maskOf, hmask', hsub i]
            simp [Ne.symm hi]
        · rw [walkArr_append_last tt d (l' ++ [f]) start 0 toSt,
            List.getLastD_concat, hc]
          have hstep2 : stepTime tt d f toSt
              ((dpP tt start d f (state - (1 <<< toSt))).1) =
              (ttGet tt f toSt
                ((dpP tt start d f (state - (1 <<< toSt))).1 + d)).2 := by
            unfold stepTime
            rw [if_neg (by omega)]
          rw [← hstep2]
          exact stepTime_mono tt d f toSt hMono hBnd hfn (hbits toSt hb).1
            _ _ hwalk'

theorem tourTime_ne_nil (tt : List (List (List (Nat × Nat)))) (d start : Nat)
    (p : List Nat) (hp : p ≠ []) :
    tourTime tt d start p =
      stepTime tt d (p.getLastD start) start (walkArr tt d start 0 p) := by
  cases p with
  | nil => exact absurd rfl hp
  | cons x xs => exact tourTime_eq_walk tt d start x xs

theorem fullMask_testBit (n i : Nat) :
    (1 <<< n - 1).testBit i = decide (i < n) := by
  rw [Nat.one_shiftLeft, Nat.testBit_two_pow_sub_one]

/-- C2 (amended): for every timetable satisfying the Timetable invariants
of the spec (arrivals monotone in the departure minute and bounded by the
horizon), every start station, every dwell value, and a station count
between 2 and 10, the DP total `dp[start][fullSet]` equals the reference
full search: the minimum over all permutations of the non-start stations
of the arrival obtained by simulating the tour left to right. -/
theorem claim_C2 (tt : List (List (List (Nat × Nat)))) (start d : Nat)
    (hstart : start < nOf tt) (hn2 : 2 ≤ nOf tt) (hn10 : nOf tt ≤ 10)
    (hMono : TimetableMono tt) (hBnd : TimetableBounded tt) :
    dpValue tt start d start (1 <<< nOf tt - 1) = bruteForce tt d start := by
  have hbstart : (1 <<< nOf tt - 1).testBit start = true := by
    rw [fullMask_testBit]
    simpa using hstart
  have hfull0 : 1 <<< nOf tt - 1 ≠ 0 := by
    intro h
    rw [h, Nat.zero_testBit] at hbstart
    exact Bool.false_ne_true hbstart
  have hfsbit : ∀ i, (1 <<< nOf tt - 1 - 1 <<< start).testBit i =
      (decide (i < nOf tt) && !(start == i)) := by
    intro i
    have h1 := testBit_sub_two_pow start (1 <<< nOf tt - 1)
      (by rw [Nat.one_shiftLeft] at hbstart ⊢; exact hbstart) i
    rw [Nat.one_shiftLeft (nOf tt)] at h1 ⊢
    rw [Nat.one_shiftLeft start]
    rw [h1, Nat.testBit_two_pow_sub_one]
  have hi0 : ∃ i0, (1 <<< nOf tt - 1 - 1 <<< start).testBit i0 = true := by
    refine ⟨if start = 0 then 1 else 0, ?_⟩
    rw [hfsbit]
    by_cases hs : start = 0
    · subst hs
      simp only [if_pos rfl]
      simp
      omega
    · simp only [if_neg hs]
      simp [hs]
      omega
  have hfs0 : 1 <<< nOf tt - 1 - 1 <<< start ≠ 0 := by
    obtain ⟨i0, hi⟩ := hi0
    intro h
    rw [h, Nat.zero_testBit] at hi
    exact Bool.false_ne_true hi
  have hnsmem : ∀ i, i ∈ (List.range (nOf tt)).filter (fun x => x ≠ start) ↔
      (i < nOf tt ∧ i ≠ start) := by
    intro i
    rw [List.mem_filter, List.mem_range]
    simp
  have hnsnd : ((List.range (nOf tt)).filter (fun x => x ≠ start)).Nodup :=
    (List.nodup_range _).filter _
  have hbrute : bruteForce tt d start =
      ((List.range (nOf tt)).filter (fun x => x ≠ start)).permutations'.foldl
        (fun m p => min m (tourTime tt d start p)) (mOf tt) := by
    unfold bruteForce
    rw [List.foldl_map]
  -- every permutation describes the full non-start mask
  have hpermmask : ∀ p, p ∈ ((List.range (nOf tt)).filter
      (fun x => x ≠ start)).permutations' →
      p.Nodup ∧ (∀ y ∈ p, y < nOf tt ∧ y ≠ start) ∧
        maskOf p = 1 <<< nOf tt - 1 - 1 <<< start ∧ p ≠ [] := by
    intro p hp
    rw [List.mem_permutations'] at hp
    have hmemp : ∀ y, y ∈ p ↔ (y < nOf tt ∧ y ≠ start) := by
      intro y
      rw [hp.mem_iff, hnsmem]
    refine ⟨hp.nodup_iff.mpr hnsnd, fun y hy => (hmemp y).mp hy, ?_, ?_⟩
    · apply Nat.eq_of_testBit_eq
      intro i
      rw [testBit_maskOf, hfsbit]
      by_cases hin : i ∈ p
      · obtain ⟨h1, h2⟩ := (hmemp i).mp hin
        have h3 : ¬ start = i := fun h => h2 h.symm
        simp [hin, h1, h3]
      · by_cases h1 : i < nOf tt
        · have h2 : i = start := by
            by_contra h3
            exact hin ((hmemp i).mpr ⟨h1, h3⟩)
          subst h2
          simp [hin]
        · simp [hin, h1]
    · intro hnil
      subst hnil
      have := (hmemp (if start = 0 then 1 else 0)).mpr
      simp only [List.not_mem_nil] at this
      apply this
      by_cases hs : start = 0
      · subst hs
        simp
        omega
      · simp [hs]
        exact ⟨by omega, fun h => hs h.symm⟩
  apply le_antisymm
  · -- the DP value is at most any simulated tour
    rw [hbrute]
    apply le_minFold
    · exact dpValue_le tt start d start _
    · intro p hp
      obtain ⟨hpnd, hpmem, hpmask, hpne⟩ := hpermmask p hp
      obtain ⟨l, y, rfl⟩ := (List.eq_nil_or_concat p).resolve_left hpne
      simp only [List.concat_eq_append] at hpnd hpmem hpmask hpne ⊢
      have hyn : y < nOf tt := (hpmem y (by simp)).1
      have hys : y ≠ start := (hpmem y (by simp)).2
      have hby : (1 <<< nOf tt - 1 - 1 <<< start).testBit y = true := by
        rw [← hpmask, testBit_maskOf]
        simp
      unfold dpValue
      rw [dpP_mem _ _ _ _ _ hfull0 hbstart,
        dpFold_fst _ _ _ _ _ _ _ (le_refl _)]
      refine le_trans (minFold_le_mem _ (List.range (nOf tt)) y
        (List.mem_range.mpr hyn) (mOf tt)) ?_
      unfold dpCand
      rw [if_neg hys]
      rw [if_neg (by simp [hby])]
      show stepTime tt d y start
        (dpValue tt start d y (1 <<< nOf tt - 1 - 1 <<< start)) ≤ _
      beta_reduce
      have htt : tourTime tt d start (l ++ [y]) =
          stepTime tt d y start (walkArr tt d start 0 (l ++ [y])) := by
        rw [tourTime_ne_nil tt d start _ hpne]
        rw [List.getLastD_concat]
      rw [htt]
      apply stepTime_mono tt d y start hMono hBnd hyn hstart
      rw [← hpmask]
      exact dp_le_walk tt start d hstart hMono hBnd l y hpnd hpmem
  · -- some simulated tour attains the DP value
    by_cases hdpM : dpValue tt start d start (1 <<< nOf tt - 1) = mOf tt
    · rw [hdpM, hbrute]
      exact minFold_le_init _ _ _
    have hdpfold : dpValue tt start d start (1 <<< nOf tt - 1) =
        (List.range (nOf tt)).foldl
          (fun m f => min m (dpCand tt d start (1 <<< nOf tt - 1)
            (fun f => (dpP tt start d f (1 <<< nOf tt - 1 - (1 <<< start))).1) f))
          (mOf tt) := by
      unfold dpValue
      rw [dpP_mem _ _ _ _ _ hfull0 hbstart,
        dpFold_fst _ _ _ _ _ _ _ (le_refl _)]
    rcases minFold_cases _ (List.range (nOf tt)) (mOf tt) with hc | ⟨f, hf, hc⟩
    · rw [← hdpfold] at hc
      exact absurd hc hdpM
    rw [← hdpfold] at hc
    have hfn : f < nOf tt := List.mem_range.mp hf
    unfold dpCand at hc
    by_cases hg1 : f = start
    · rw [if_pos hg1] at hc
      exact absurd hc hdpM
    rw [if_neg hg1] at hc
    by_cases hg2 : 1 <<< nOf tt - 1 - (1 <<< start) ≠ 0 ∧
        (1 <<< nOf tt - 1 - (1 <<< start)).testBit f = false
    · rw [if_pos hg2] at hc
      exact absurd hc hdpM
    rw [if_neg hg2] at hc
    beta_reduce at hc
    by_cases hg3 : mOf tt ≤
        (dpP tt start d f (1 <<< nOf tt - 1 - (1 <<< start))).1 + d
    · rw [if_pos hg3] at hc
      exact absurd hc hdpM
    rw [if_neg hg3] at hc
    push_neg at hg3
    have hfb : (1 <<< nOf tt - 1 - (1 <<< start)).testBit f = true := by
      rcases Bool.eq_false_or_eq_true
        ((1 <<< nOf tt - 1 - (1 <<< start)).testBit f) with hbb | hbb
      · exact hbb
      · exact absurd ⟨hfs0, hbb⟩ hg2
    obtain ⟨l', hnd', hmem', hmask', hwalk'⟩ :=
      dp_achieved tt start d hstart hMono hBnd
        (1 <<< nOf tt - 1 - (1 <<< start)) f hfs0 hfb
        (fun i hi => by
          rw [hfsbit i] at hi
          have h2 := Bool.and_eq_true_iff.mp hi
          have h3 : i < nOf tt := by simpa using h2.1
          have h4 : ¬ start = i := by simpa using h2.2
          exact ⟨h3, fun h => h4 h.symm⟩)
    have hpperm : l' ++ [f] ∈ ((List.range (nOf tt)).filter
        (fun x => x ≠ start)).permutations' := by
      rw [List.mem_permutations']
      apply (List.perm_ext_iff_of_nodup hnd' hnsnd).mpr
      intro a
      rw [hnsmem]
      constructor
      · intro ha
        exact hmem' a ha
      · intro ⟨h1, h2⟩
        have h5 : ¬ start = a := fun h => h2 h.symm
        have h6 : (maskOf (l' ++ [f])).testBit a = true := by
          rw [hmask', hfsbit]
          simp [h1, h5]
        rw [testBit_maskOf] at h6
        simpa using h6
    rw [hbrute]
    refine le_trans (minFold_le_mem _ _ _ hpperm (mOf tt)) ?_
    rw [tourTime_ne_nil tt d start _ (by simp), List.getLastD_concat, hc]
    have hstep2 : stepTime tt d f start
        ((dpP tt start d f (1 <<< nOf tt - 1 - (1 <<< start))).1) =
        (ttGet tt f start
          ((dpP tt start d f (1 <<< nOf tt - 1 - (1 <<< start))).1 + d)).2 := by
      unfold stepTime
      rw [if_neg (by omega)]
    rw [← hstep2]
    exact stepTime_mono tt d f start hMono hBnd hfn hstart _ _ hwalk'

/-- C2 witness: on the concrete two-station timetable with dwell 1, the
DP total equals the brute-force minimum over permutations. -/
theorem claim_C2_witness :
    dpValue exSmallTT 0 1 0 (1 <<< nOf exSmallTT - 1) =
      bruteForce exSmallTT 1 0 :=
  claim_C2 exSmallTT 0 1 (by decide) (by decide) (by decide) (by decide)
    (by decide)

/-- C2 counterexample: with a single station the claim fails: the
reference search finds the empty tour with total time 0, while the DP
full-set value is the sentinel (here 2), because the DP never assigns the
one-station state.  The equality only holds from 2 stations upward. -/
theorem claim_C2_counterexample :
    dpValue exOneStation 0 5 0 (1 <<< nOf exOneStation - 1) = 2 ∧
      bruteForce exOneStation 5 0 = 0 ∧
      dpValue exOneStation 0 5 0 (1 <<< nOf exOneStation - 1) ≠
        bruteForce exOneStation 5 0 := by
  refine ⟨by decide, by decide, by decide⟩

/-! ### Claim C6: structure of the reconstructed route -/

theorem testBit_sub_shift (state toSt : Nat) (hb : state.testBit toSt = true)
    (i : Nat) :
    (state - 1 <<< toSt).testBit i = (state.testBit i && !(toSt == i)) := by
  rw [Nat.one_shiftLeft]
  exact testBit_sub_two_pow toSt state hb i

theorem dpParent_zero (tt : List (List (List (Nat × Nat)))) (start d toSt : Nat) :
    dpParent tt start d toSt 0 = none := by
  unfold dpParent
  rw [dpP_zero]

theorem recon_spec (tt : List (List (List (Nat × Nat)))) (start d : Nat) :
    ∀ state fuel toSt, state < fuel → state ≠ 0 →
      state.testBit toSt = true →
      (∀ i, (state - 1 <<< toSt).testBit i = true → i ≠ start) →
      dpValue tt start d toSt state < mOf tt →
      (reconstruct tt start d fuel toSt state ≠ [] ∧
        ((reconstruct tt start d fuel toSt state).headD dfltSec).to_station = toSt ∧
        ((reconstruct tt start d fuel toSt state).getLastD dfltSec).from_station
          = start ∧
        List.Chain' (fun a b => a.from_station = b.to_station)
          (reconstruct tt start d fuel toSt state) ∧
        ((reconstruct tt start d fuel toSt state).map
          (fun s => s.from_station)).Nodup ∧
        (∀ x, x ∈ (reconstruct tt start d fuel toSt state).map
          (fun s => s.from_station) ↔
            ((state - 1 <<< toSt).testBit x = true ∨ x = start))) := by
  intro state
  induction state using Nat.strong_induction_on with
  | _ state ih =>
    intro fuel toSt hfuel h0 hb hns hdp
    obtain ⟨f, rfl⟩ : ∃ f, fuel = f + 1 := ⟨fuel - 1, by omega⟩
    cases hp : dpParent tt start d toSt state with
    | none =>
      exfalso
      have := dpParent_none_val tt start d toSt state h0 hb hp
      omega
    | some pr =>
      obtain ⟨f0, fs'⟩ := pr
      obtain ⟨hfs', hneq, hguard, hlt2, hvaleq, hvlt⟩ :=
        dpParent_spec tt start d toSt state h0 hb f0 fs' hp
      subst hfs'
      have hrec : reconstruct tt start d (f + 1) toSt state =
          Section.mk f0 toSt
            (ttGet tt f0 toSt
              (dpValue tt start d f0 (state - 1 <<< toSt) + d)).1
            (ttGet tt f0 toSt
              (dpValue tt start d f0 (state - 1 <<< toSt) + d)).2 ::
            reconstruct tt start d f f0 (state - 1 <<< toSt) := by
        show (match dpParent tt start d toSt state with
          | none => []
          | some (f1, fs) =>
            Section.mk f1 toSt (ttGet tt f1 toSt (dpValue tt start d f1 fs + d)).1
              (ttGet tt f1 toSt (dpValue tt start d f1 fs + d)).2 ::
              reconstruct tt start d f f1 fs) = _
        rw [hp]
      rcases hguard with hguard | hguard
      · -- base: the predecessor state is empty, the parent is the start
        have hf0 : f0 = start := by
          by_contra hne
          have hz : dpValue tt start d f0 (state - 1 <<< toSt) = mOf tt := by
            unfold dpValue
            rw [hguard, dpP_zero]
            simp [hne]
          omega
        have hrec2 : reconstruct tt start d f f0 (state - 1 <<< toSt) = [] := by
          rw [hguard]
          exact reconstruct_of_parent_none tt start d f0 0
            (dpParent_zero tt start d f0) f
        rw [hrec, hrec2]
        refine ⟨by simp, rfl, by simp [List.getLastD, hf0], 
          List.chain'_singleton _, by simp, ?_⟩
        intro x
        rw [hguard]
        simp [Nat.zero_testBit, hf0, eq_comm]
      · -- step: recurse into the predecessor state
        have hfs0 : state - 1 <<< toSt ≠ 0 := by
          intro h
          rw [h, Nat.zero_testBit] at hguard
          exact Bool.false_ne_true hguard
        have hflt : state - 1 <<< toSt < state := by
          have h1 := shiftLeft_le_of_testBit state toSt hb
          have h2 := shiftLeft_pos toSt
          omega
        have hf0start : f0 ≠ start := hns f0 hguard
        have hns' : ∀ i, (state - 1 <<< toSt - 1 <<< f0).testBit i = true →
            i ≠ start := by
          intro i hi
          rw [testBit_sub_shift _ _ hguard] at hi
          exact hns i (Bool.and_eq_true_iff.mp hi).1
        have hdp' : dpValue tt start d f0 (state - 1 <<< toSt) < mOf tt := by
          omega
        obtain ⟨hne', hhead', hlast', hchain', hnd', hmem'⟩ :=
          ih _ hflt f f0 (by omega) hfs0 hguard hns' hdp'
        rw [hrec]
        obtain ⟨P', hP'⟩ : ∃ P', reconstruct tt start d f f0 (state - 1 <<< toSt)
            = P' := ⟨_, rfl⟩
        rw [hP'] at hne' hhead' hlast' hchain' hnd' hmem' ⊢
        have hf0mem : ∀ x, x ∈ P'.map (fun s => s.from_station) ↔
            ((state - 1 <<< toSt - 1 <<< f0).testBit x = true ∨ x = start) :=
          hmem'
        refine ⟨by simp, by simp [List.headD], ?_, ?_, ?_, ?_⟩
        · rcases List.exists_cons_of_ne_nil hne' with ⟨q, qs, hq⟩
          subst hq
          rw [List.getLastD_cons, List.getLastD_cons]
          rw [List.getLastD_cons] at hlast'
          exact hlast'
        · rw [List.chain'_cons']
          constructor
          · intro b hbmem
            rcases List.exists_cons_of_ne_nil hne' with ⟨q, qs, hq⟩
            subst hq
            simp only [List.head?_cons, Option.mem_some_iff] at hbmem
            subst hbmem
            have hqto := hhead'
            rw [List.headD_cons] at hqto
            exact hqto.symm
          · exact hchain'
        · simp only [List.map_cons]
          rw [List.nodup_cons]
          constructor
          · intro hmem2
            rw [hf0mem f0] at hmem2
            rcases hmem2 with hmem2 | hmem2
            · rw [testBit_sub_shift _ _ hguard] at hmem2
              simp at hmem2
            · exact hf0start hmem2
          · exact hnd'
        · intro x
          simp only [List.map_cons, List.mem_cons]
          rw [hf0mem x]
          rw [testBit_sub_shift _ _ hguard]
          constructor
          · intro hx
            rcases hx with hx | hx | hx
            · subst hx
              exact Or.inl hguard
            · exact Or.inl (Bool.and_eq_true_iff.mp hx).1
            · exact Or.inr hx
          · intro hx
            rcases hx with hx | hx
            · by_cases hxf : x = f0
              · exact Or.inl hxf
              · refine Or.inr (Or.inl ?_)
                rw [hx]
                simp [hxf]
                exact fun h => hxf h.symm
            · exact Or.inr (Or.inr hx)

/-- C6: whenever the DP succeeds (the full-set state is below the
sentinel), the returned route is a closed walk: it is non-empty, starts
at the start station, ends back at the start station, consecutive
sections are linked (`to_station` equals the next `from_station`), and
its departure stations are pairwise distinct and consist of the start
station together with every other station exactly once. -/
theorem claim_C6 (tt : List (List (List (Nat × Nat)))) (start d : Nat)
    (hstart : start < nOf tt)
    (hdp : dpValue tt start d start (1 <<< nOf tt - 1) < mOf tt) :
    find_optimal_route_by_bit_dp tt start d ≠ [] ∧
      ((find_optimal_route_by_bit_dp tt start d).headD dfltSec).from_station
        = start ∧
      ((find_optimal_route_by_bit_dp tt start d).getLastD dfltSec).to_station
        = start ∧
      List.Chain' (fun a b => a.to_station = b.from_station)
        (find_optimal_route_by_bit_dp tt start d) ∧
      ((find_optimal_route_by_bit_dp tt start d).map
        (fun s => s.from_station)).Nodup ∧
      (∀ x, x ∈ (find_optimal_route_by_bit_dp tt start d).map
        (fun s => s.from_station) ↔ ((x < nOf tt ∧ x ≠ start) ∨ x = start)) := by
  have hbstart : (1 <<< nOf tt - 1).testBit start = true := by
    rw [fullMask_testBit]
    simpa using hstart
  have hfull0 : 1 <<< nOf tt - 1 ≠ 0 := by
    intro h
    rw [h, Nat.zero_testBit] at hbstart
    exact Bool.false_ne_true hbstart
  have hns : ∀ i, (1 <<< nOf tt - 1 - 1 <<< start).testBit i = true →
      i ≠ start := by
    intro i hi
    rw [testBit_sub_shift _ _ hbstart] at hi
    have h2 := (Bool.and_eq_true_iff.mp hi).2
    simp at h2
    exact fun h => h2 h.symm
  obtain ⟨hne, hhead, hlast, hchain, hnd, hmem⟩ :=
    recon_spec tt start d (1 <<< nOf tt - 1) (1 <<< nOf tt - 1 + 1) start
      (by omega) hfull0 hbstart hns hdp
  unfold find_optimal_route_by_bit_dp
  refine ⟨by simpa using hne, ?_, ?_, ?_, ?_, ?_⟩
  · rw [List.headD_eq_head?_getD, List.head?_reverse,
      ← List.getLastD_eq_getLast?]
    exact hlast
  · rw [List.getLastD_eq_getLast?, List.getLast?_reverse,
      ← List.headD_eq_head?_getD]
    exact hhead
  · rw [List.chain'_reverse]
    exact hchain.imp (fun a b h => h.symm)
  · rw [List.map_reverse, List.nodup_reverse]
    exact hnd
  · intro x
    rw [List.map_reverse, List.mem_reverse, hmem x,
      testBit_sub_shift _ _ hbstart, fullMask_testBit]
    constructor
    · intro hx
      rcases hx with hx | hx
      · obtain ⟨h1, h2⟩ := Bool.and_eq_true_iff.mp hx
        simp at h1 h2
        exact Or.inl ⟨h1, fun h => h2 h.symm⟩
      · exact Or.inr hx
    · intro hx
      rcases hx with ⟨h1, h2⟩ | hx
      · refine Or.inl ?_
        simp [h1]
        exact fun h => h2 h.symm
      · exact Or.inr hx

/-- C6 witness: on the concrete two-station timetable the successful
optimizer run yields a route 0 to 1 to 0 with the claimed structure. -/
theorem claim_C6_witness :
    find_optimal_route_by_bit_dp exSmallTT 0 1 ≠ [] ∧
      ((find_optimal_route_by_bit_dp exSmallTT 0 1).headD dfltSec).from_station
        = 0 ∧
      ((find_optimal_route_by_bit_dp exSmallTT 0 1).getLastD dfltSec).to_station
        = 0 ∧
      List.Chain' (fun a b => a.to_station = b.from_station)
        (find_optimal_route_by_bit_dp exSmallTT 0 1) ∧
      ((find_optimal_route_by_bit_dp exSmallTT 0 1).map
        (fun s => s.from_station)).Nodup ∧
      (∀ x, x ∈ (find_optimal_route_by_bit_dp exSmallTT 0 1).map
        (fun s => s.from_station) ↔ ((x < nOf exSmallTT ∧ x ≠ 0) ∨ x = 0)) :=
  claim_C6 exSmallTT 0 1 (by decide) (by decide)

/-! ### Soundness and completeness of the bounded BFS closure -/

theorem le_foldlMax_init {α : Type} (g : α → Nat) (l : List α) :
    ∀ b, b ≤ l.foldl (fun m s => max m (g s)) b := by
  induction l with
  | nil => intro b; exact le_refl _
  | cons z zs ihz =>
    intro b
    simp only [List.foldl_cons]
    exact le_trans (Nat.le_max_left _ _) (ihz _)

theorem foldlMax_le_mem {α : Type} (g : α → Nat) (l : List α) (x : α)
    (hx : x ∈ l) : ∀ a, g x ≤ l.foldl (fun m s => max m (g s)) a := by
  induction l with
  | nil => simp at hx
  | cons y ys ih =>
    intro a
    simp only [List.foldl_cons]
    rcases List.mem_cons.mp hx with h | h
    · subst h
      exact le_trans (Nat.le_max_right _ _) (le_foldlMax_init g ys _)
    · exact ih h _

theorem sec_to_time_lt_maxTime (trains : List (List Section)) (s : Section)
    (hs : s ∈ sectionsOf trains) : s.to_time < maxTime trains := by
  unfold maxTime
  have := foldlMax_le_mem (fun s => s.to_time) (sectionsOf trains) s hs 0
  omega

theorem mem_targetTimes_iff (trains : List (List Section)) (t : Nat) :
    t ∈ targetTimes trains ↔
      (t < maxTime trains ∧ isTargetTime trains t = true) := by
  unfold targetTimes
  rw [List.mem_filter, List.mem_range]

theorem sec_times_target (trains : List (List Section)) (s : Section)
    (hs : s ∈ sectionsOf trains) (hv : s.from_time < s.to_time) :
    s.from_time ∈ targetTimes trains ∧ s.to_time ∈ targetTimes trains := by
  have hlt := sec_to_time_lt_maxTime trains s hs
  constructor
  · rw [mem_targetTimes_iff]
    refine ⟨by omega, ?_⟩
    unfold isTargetTime
    rw [List.any_eq_true]
    exact ⟨s, hs, by simp⟩
  · rw [mem_targetTimes_iff]
    refine ⟨hlt, ?_⟩
    unfold isTargetTime
    rw [List.any_eq_true]
    exact ⟨s, hs, by simp⟩

theorem edge_time_lt (trains : List (List Section)) (hv : ValidTrips trains)
    (u v : Nat × Nat) (he : EdgeRel trains u v) : u.1 < v.1 := by
  unfold EdgeRel adjF at he
  rw [List.mem_append] at he
  rcases he with he | he
  · rw [List.mem_map] at he
    obtain ⟨s, hs, hveq⟩ := he
    rw [List.mem_filter] at hs
    obtain ⟨hsv1, hsv2, hsv3⟩ := hv.2.2 s hs.1
    have harg : s.from_time = u.1 := by
      have := hs.2
      simp at this
      exact this.1
    rw [← hveq]
    simp only
    omega
  · by_cases hcond : (decide (u.2 < nStations trains) && isTargetTime trains u.1
        && decide (u.1 < maxTime trains)) = true
    · rw [if_pos hcond] at he
      cases hnt : nextTargetTime trains u.1 with
      | none => rw [hnt] at he; simp at he
      | some w =>
        rw [hnt] at he
        rw [List.mem_singleton] at he
        subst he
        unfold nextTargetTime at hnt
        have hw := List.mem_of_mem_head? (by rw [hnt]; rfl)
        rw [List.mem_filter] at hw
        have := hw.2
        simpa using this
    · rw [if_neg hcond] at he
      simp at he

theorem edge_target_lt_max (trains : List (List Section)) (hv : ValidTrips trains)
    (u v : Nat × Nat) (he : EdgeRel trains u v) : v.1 < maxTime trains := by
  unfold EdgeRel adjF at he
  rw [List.mem_append] at he
  rcases he with he | he
  · rw [List.mem_map] at he
    obtain ⟨s, hs, hveq⟩ := he
    rw [List.mem_filter] at hs
    have := sec_to_time_lt_maxTime trains s hs.1
    rw [← hveq]
    simpa using this
  · by_cases hcond : (decide (u.2 < nStations trains) && isTargetTime trains u.1
        && decide (u.1 < maxTime trains)) = true
    · rw [if_pos hcond] at he
      cases hnt : nextTargetTime trains u.1 with
      | none => rw [hnt] at he; simp at he
      | some w =>
        rw [hnt] at he
        rw [List.mem_singleton] at he
        subst he
        unfold nextTargetTime at hnt
        have hw := List.mem_of_mem_head? (by rw [hnt]; rfl)
        rw [List.mem_filter, mem_targetTimes_iff] at hw
        simpa using hw.1.1
    · rw [if_neg hcond] at he
      simp at he

theorem src_mem_closure (trains : List (List Section)) (src : Nat × Nat) :
    ∀ k, src ∈ closureIter trains k src := by
  intro k
  induction k with
  | zero => simp [closureIter]
  | succ k ih =>
    show src ∈ expandNodes trains (closureIter trains k src)
    unfold expandNodes
    rw [List.mem_dedup, List.mem_append]
    exact Or.inl ih

theorem closure_mono_fuel (trains : List (List Section)) (src : Nat × Nat) :
    ∀ k k', k ≤ k' → closureIter trains k src ⊆ closureIter trains k' src := by
  intro k k' hk
  induction k' with
  | zero =>
    have : k = 0 := by omega
    subst this
    exact fun v hv => hv
  | succ j ih =>
    by_cases hkj : k = j + 1
    · subst hkj
      exact fun v hv => hv
    · intro v hv
      have hv2 := ih (by omega) hv
      show v ∈ expandNodes trains (closureIter trains j src)
      unfold expandNodes
      rw [List.mem_dedup, List.mem_append]
      exact Or.inl hv2

theorem closure_step (trains : List (List Section)) (src u v : Nat × Nat)
    (k : Nat) (hu : u ∈ closureIter trains k src) (he : EdgeRel trains u v) :
    v ∈ closureIter trains (k + 1) src := by
  show v ∈ expandNodes trains (closureIter trains k src)
  unfold expandNodes
  rw [List.mem_dedup, List.mem_append]
  refine Or.inr ?_
  rw [List.mem_flatMap]
  exact ⟨u, hu, he⟩

theorem closure_sound (trains : List (List Section)) (src : Nat × Nat) :
    ∀ k v, v ∈ closureIter trains k src → Reach trains src v := by
  intro k
  induction k with
  | zero =>
    intro v hv
    simp [closureIter] at hv
    subst hv
    exact Relation.ReflTransGen.refl
  | succ k ih =>
    intro v hv
    unfold closureIter expandNodes at hv
    rw [List.mem_dedup, List.mem_append] at hv
    rcases hv with hv | hv
    · exact ih v hv
    · rw [List.mem_flatMap] at hv
      obtain ⟨u, hu, he⟩ := hv
      exact Relation.ReflTransGen.tail (ih u hu) he

theorem reach_time_le (trains : List (List Section)) (hv : ValidTrips trains)
    (src v : Nat × Nat) (hr : Reach trains src v) : src.1 ≤ v.1 := by
  induction hr with
  | refl => exact le_refl _
  | tail hr he ih => exact le_trans ih (le_of_lt (edge_time_lt trains hv _ _ he))

theorem reach_mem_closure (trains : List (List Section)) (hv : ValidTrips trains)
    (src v : Nat × Nat) (hr : Reach trains src v) :
    v ∈ closureIter trains (v.1 + 1 - src.1) src := by
  induction hr with
  | refl => exact src_mem_closure trains src _
  | @tail u w hr he ih =>
    have h1 := edge_time_lt trains hv u w he
    have h2 := reach_time_le trains hv src u hr
    have h3 := closure_step trains src u w _ ih he
    exact closure_mono_fuel trains src _ _ (by omega) h3

theorem reach_iff_mem (trains : List (List Section)) (hv : ValidTrips trains)
    (src : Nat × Nat) (hsrc : src.1 < maxTime trains) (v : Nat × Nat) :
    v ∈ reachList trains src ↔ Reach trains src v := by
  constructor
  · exact closure_sound trains src _ v
  · intro hr
    have h1 := reach_mem_closure trains hv src v hr
    apply closure_mono_fuel trains src _ _ _ h1
    rcases Relation.ReflTransGen.cases_head hr with h | ⟨u, he, _⟩
    · subst h
      omega
    · have h2 := edge_time_lt trains hv src u he
      have h3 := reach_time_le trains hv src v hr
      have h4 : v = src ∨ v.1 < maxTime trains := by
        rcases Relation.ReflTransGen.cases_tail hr with h | ⟨w, hw, hew⟩
        · exact Or.inl h
        · exact Or.inr (edge_target_lt_max trains hv w v hew)
      rcases h4 with h4 | h4
      · subst h4
        omega
      · omega

theorem targetTimes_sorted (trains : List (List Section)) :
    List.Pairwise (· < ·) (targetTimes trains) := by
  unfold targetTimes
  exact List.Pairwise.filter _ (List.pairwise_lt_range _)

theorem wait_chain (trains : List (List Section)) (hv : ValidTrips trains)
    (s : Nat) (hs : s < nStations trains) :
    ∀ k t1 t2, t1 ∈ targetTimes trains → t2 ∈ targetTimes trains →
      t1 ≤ t2 → t2 - t1 ≤ k → Reach trains (t1, s) (t2, s) := by
  intro k
  induction k with
  | zero =>
    intro t1 t2 _ _ hle hk
    have : t1 = t2 := by omega
    subst this
    exact Relation.ReflTransGen.refl
  | succ k ih =>
    intro t1 t2 ht1 ht2 hle hk
    by_cases heq : t1 = t2
    · subst heq
      exact Relation.ReflTransGen.refl
    have hlt : t1 < t2 := by omega
    have ht2f : t2 ∈ (targetTimes trains).filter (fun u => t1 < u) := by
      rw [List.mem_filter]
      exact ⟨ht2, by simpa using hlt⟩
    cases hfl : (targetTimes trains).filter (fun u => t1 < u) with
    | nil => rw [hfl] at ht2f; simp at ht2f
    | cons u rest =>
      have hu : u ∈ (targetTimes trains).filter (fun u => t1 < u) := by
        rw [hfl]
        exact List.mem_cons_self ..
      rw [List.mem_filter] at hu
      have hut : u ∈ targetTimes trains := hu.1
      have ht1u : t1 < u := by simpa using hu.2
      have hut2 : u ≤ t2 := by
        have hpw := (targetTimes_sorted trains).filter (fun u => decide (t1 < u))
        rw [hfl] at hpw
        rw [hfl] at ht2f
        rcases List.mem_cons.mp ht2f with h | h
        · omega
        · have := (List.pairwise_cons.mp hpw).1 t2 h
          omega
      have hnext : nextTargetTime trains t1 = some u := by
        unfold nextTargetTime
        rw [hfl]
        rfl
      have hedge : EdgeRel trains (t1, s) (u, s) := by
        unfold EdgeRel adjF
        rw [List.mem_append]
        refine Or.inr ?_
        rw [mem_targetTimes_iff] at ht1
        rw [if_pos (by simp [hs, ht1.1, ht1.2])]
        rw [hnext]
        exact List.mem_singleton.mpr rfl
      have hrest : Reach trains (u, s) (t2, s) :=
        ih u t2 hut ht2 hut2 (by omega)
      exact Relation.ReflTransGen.trans
        (Relation.ReflTransGen.single hedge) hrest

/-! ### Journeys versus BFS reachability -/

theorem headSec_cons (j : Section) (l : List Section) : headSec (j :: l) = j := rfl

theorem lastSec_cons_cons (j j2 : Section) (l : List Section) :
    lastSec (j :: j2 :: l) = lastSec (j2 :: l) := by
  unfold lastSec
  rw [List.getLast?_cons_cons]

theorem ride_edge (trains : List (List Section)) (j : Section)
    (hj : j ∈ sectionsOf trains) :
    EdgeRel trains (j.from_time, j.from_station) (j.to_time, j.to_station) := by
  unfold EdgeRel adjF
  rw [List.mem_append]
  refine Or.inl ?_
  rw [List.mem_map]
  refine ⟨j, ?_, rfl⟩
  rw [List.mem_filter]
  exact ⟨hj, by simp⟩

theorem journey_reach (trains : List (List Section)) (hv : ValidTrips trains) :
    ∀ (js : List Section) (t0 f : Nat), t0 ∈ targetTimes trains →
      f < nStations trains → js ≠ [] →
      (∀ s ∈ js, s ∈ sectionsOf trains) → List.Chain' SecStep js →
      (headSec js).from_station = f → t0 ≤ (headSec js).from_time →
      Reach trains (t0, f) ((lastSec js).to_time, (lastSec js).to_station) := by
  intro js
  induction js with
  | nil => intro t0 f _ _ hne; exact absurd rfl hne
  | cons j rest ih =>
    intro t0 f ht0 hf _ hmem hchain hhead hle
    rw [headSec_cons] at hhead hle
    have hj : j ∈ sectionsOf trains := hmem j (List.mem_cons_self ..)
    obtain ⟨hjt, hjf, hjto⟩ := hv.2.2 j hj
    obtain ⟨hft, htt⟩ := sec_times_target trains j hj hjt
    have hwait : Reach trains (t0, f) (j.from_time, f) :=
      wait_chain trains hv f hf (j.from_time - t0) t0 j.from_time ht0 hft hle
        (le_refl _)
    have hride : EdgeRel trains (j.from_time, j.from_station)
        (j.to_time, j.to_station) := ride_edge trains j hj
    rw [hhead] at hride
    have hreachj : Reach trains (t0, f) (j.to_time, j.to_station) :=
      Relation.ReflTransGen.tail hwait hride
    cases rest with
    | nil => exact hreachj
    | cons j2 rest2 =>
      rw [lastSec_cons_cons]
      have hstep : SecStep j j2 := (List.chain'_cons.mp hchain).1
      obtain ⟨hst, htm⟩ := hstep
      have hrec := ih j.to_time j.to_station htt hjto (by simp)
        (fun s hs => hmem s (List.mem_cons_of_mem _ hs))
        (List.chain'_cons.mp hchain).2
        (by rw [headSec_cons]; exact hst.symm)
        (by rw [headSec_cons]; exact htm)
      exact Relation.ReflTransGen.trans hreachj hrec

theorem edge_cases (trains : List (List Section)) (u v : Nat × Nat)
    (he : EdgeRel trains u v) :
    (∃ s ∈ sectionsOf trains, s.from_time = u.1 ∧ s.from_station = u.2 ∧
      v = (s.to_time, s.to_station)) ∨ (v.2 = u.2 ∧ u.1 < v.1) := by
  unfold EdgeRel adjF at he
  rw [List.mem_append] at he
  rcases he with he | he
  · rw [List.mem_map] at he
    obtain ⟨s, hs, hveq⟩ := he
    rw [List.mem_filter] at hs
    have hc := hs.2
    simp at hc
    exact Or.inl ⟨s, hs.1, hc.1, hc.2, hveq.symm⟩
  · by_cases hcond : (decide (u.2 < nStations trains) && isTargetTime trains u.1
        && decide (u.1 < maxTime trains)) = true
    · rw [if_pos hcond] at he
      cases hnt : nextTargetTime trains u.1 with
      | none => rw [hnt] at he; simp at he
      | some w =>
        rw [hnt] at he
        rw [List.mem_singleton] at he
        subst he
        refine Or.inr ⟨rfl, ?_⟩
        unfold nextTargetTime at hnt
        have hw := List.mem_of_mem_head? (by rw [hnt]; rfl)
        rw [List.mem_filter] at hw
        simpa using hw.2
    · rw [if_neg hcond] at he
      simp at he

theorem reach_journey (trains : List (List Section)) (hv : ValidTrips trains)
    (src : Nat × Nat) :
    ∀ v, Reach trains src v →
      (v.2 = src.2 ∧ src.1 ≤ v.1) ∨
      ∃ js, js ≠ [] ∧ (∀ s ∈ js, s ∈ sectionsOf trains) ∧
        List.Chain' SecStep js ∧ (headSec js).from_station = src.2 ∧
        src.1 ≤ (headSec js).from_time ∧
        (lastSec js).to_station = v.2 ∧ (lastSec js).to_time ≤ v.1 := by
  intro v hr
  induction hr with
  | refl => exact Or.inl ⟨rfl, le_refl _⟩
  | @tail u w hr he ih =>
    rcases edge_cases trains u w he with ⟨s, hs, hst, hsf, hw⟩ | ⟨hws, hwt⟩
    · rcases ih with ⟨hus, hut⟩ | ⟨js, hne, hmem, hchain, hhf, hht, hlf, hlt⟩
      · refine Or.inr ⟨[s], by simp, by simpa using hs, List.chain'_singleton _,
          ?_, ?_, ?_, ?_⟩
        · rw [headSec_cons, hsf, hus]
        · rw [headSec_cons, hst]
          exact hut
        · show (lastSec [s]).to_station = w.2
          rw [hw]
          rfl
        · show (lastSec [s]).to_time ≤ w.1
          rw [hw]
          exact le_refl _
      · refine Or.inr ⟨js ++ [s], by simp, ?_, ?_, ?_, ?_, ?_, ?_⟩
        · intro x hx
          rw [List.mem_append] at hx
          rcases hx with hx | hx
          · exact hmem x hx
          · rw [List.mem_singleton] at hx
            subst hx
            exact hs
        · rw [List.chain'_append]
          refine ⟨hchain, List.chain'_singleton _, ?_⟩
          intro x hx y hy
          simp only [List.head?_cons, Option.mem_some_iff] at hy
          subst hy
          have hxl : x = lastSec js := by
            unfold lastSec
            rw [hx]
            rfl
          subst hxl
          exact ⟨by rw [hlf, hsf], by omega⟩
        · rcases List.exists_cons_of_ne_nil hne with ⟨q, qs, hq⟩
          subst hq
          rw [List.cons_append, headSec_cons]
          rw [headSec_cons] at hhf
          exact hhf
        · rcases List.exists_cons_of_ne_nil hne with ⟨q, qs, hq⟩
          subst hq
          rw [List.cons_append, headSec_cons]
          rw [headSec_cons] at hht
          exact hht
        · show (lastSec (js ++ [s])).to_station = w.2
          unfold lastSec
          rw [List.getLast?_concat]
          rw [hw]
          rfl
        · show (lastSec (js ++ [s])).to_time ≤ w.1
          unfold lastSec
          rw [List.getLast?_concat]
          rw [hw]
          exact le_refl _
    · rcases ih with ⟨hus, hut⟩ | ⟨js, hne, hmem, hchain, hhf, hht, hlf, hlt⟩
      · exact Or.inl ⟨by rw [hws, hus], by omega⟩
      · exact Or.inr ⟨js, hne, hmem, hchain, hhf, hht, by rw [hlf, hws],
          by omega⟩

theorem bfsMin_le_M (trains : List (List Section)) (src : Nat × Nat) (st : Nat) :
    bfsMin trains src st ≤ maxTime trains := by
  unfold bfsMin
  exact minFold_le_init (fun p : Nat × Nat => p.1) _ _

theorem lastSec_mem (js : List Section) (hne : js ≠ []) : lastSec js ∈ js := by
  unfold lastSec
  cases hl : js.getLast? with
  | none =>
    rw [List.getLast?_eq_none_iff] at hl
    exact absurd hl hne
  | some x =>
    exact List.mem_of_mem_getLast? hl

theorem journeyArr_lt_M (trains : List (List Section)) (f toSt t : Nat)
    (js : List Section) (hj : IsJourney trains f toSt t js) :
    journeyArr js < maxTime trains := by
  obtain ⟨hne, hmem, _⟩ := hj
  exact sec_to_time_lt_maxTime trains _ (hmem _ (lastSec_mem js hne))

theorem bfsMin_le_journey (trains : List (List Section)) (hv : ValidTrips trains)
    (f toSt t0 : Nat) (ht0 : t0 ∈ targetTimes trains) (hf : f < nStations trains)
    (js : List Section) (hj : IsJourney trains f toSt t0 js) :
    bfsMin trains (t0, f) toSt ≤ journeyArr js := by
  obtain ⟨hne, hmem, hchain, hhf, hht, hlf⟩ := hj
  have hreach : Reach trains (t0, f)
      ((lastSec js).to_time, (lastSec js).to_station) :=
    journey_reach trains hv js t0 f ht0 hf hne hmem hchain hhf hht
  have hmem2 : ((lastSec js).to_time, (lastSec js).to_station) ∈
      reachList trains (t0, f) := by
    rw [reach_iff_mem trains hv (t0, f) (by
      rw [mem_targetTimes_iff] at ht0
      exact ht0.1)]
    exact hreach
  have hmem3 : ((lastSec js).to_time, (lastSec js).to_station) ∈
      (reachList trains (t0, f)).filter (fun p => p.2 = toSt) := by
    rw [List.mem_filter]
    exact ⟨hmem2, by simpa using hlf⟩
  unfold bfsMin
  exact minFold_le_mem (fun p : Nat × Nat => p.1) _ _ hmem3 _

theorem bfsMin_achieved (trains : List (List Section)) (hv : ValidTrips trains)
    (f toSt t0 : Nat) (ht0 : t0 ∈ targetTimes trains) (hneq : toSt ≠ f)
    (hlt : bfsMin trains (t0, f) toSt < maxTime trains) :
    ∃ js, IsJourney trains f toSt t0 js ∧
      journeyArr js ≤ bfsMin trains (t0, f) toSt := by
  have hcases := minFold_cases (fun p : Nat × Nat => p.1)
    ((reachList trains (t0, f)).filter (fun p => p.2 = toSt)) (maxTime trains)
  unfold bfsMin at hlt ⊢
  rcases hcases with hc | ⟨p, hp, hc⟩
  · rw [hc] at hlt
    omega
  · rw [List.mem_filter] at hp
    have hreach : Reach trains (t0, f) p := by
      rw [← reach_iff_mem trains hv (t0, f) (by
        rw [mem_targetTimes_iff] at ht0
        exact ht0.1)]
      exact hp.1
    rcases reach_journey trains hv (t0, f) p hreach with ⟨hps, _⟩ |
        ⟨js, hne, hmem, hchain, hhf, hht, hlf, hlast⟩
    · exfalso
      have : p.2 = toSt := by simpa using hp.2
      exact hneq (by rw [← this, hps])
    · refine ⟨js, ⟨hne, hmem, hchain, hhf, hht, ?_⟩, ?_⟩
      · rw [hlf]
        simpa using hp.2
      · rw [hc]
        exact hlast

/-! ### Characterising the timetable cells -/

theorem registered_iff (trains : List (List Section)) (f t : Nat) :
    registeredEvent trains f t = true ↔
      ∃ s ∈ sectionsOf trains, s.from_station = f ∧ s.from_time = t := by
  unfold registeredEvent
  rw [List.any_eq_true]
  simp

theorem registered_target (trains : List (List Section)) (hv : ValidTrips trains)
    (f t : Nat) (hr : registeredEvent trains f t = true) :
    t ∈ targetTimes trains := by
  rw [registered_iff] at hr
  obtain ⟨s, hs, hsf, hst⟩ := hr
  have := (sec_times_target trains s hs (hv.2.2 s hs).1).1
  rw [hst] at this
  exact this

theorem journey_mono (trains : List (List Section)) (f toSt t t' : Nat)
    (hle : t ≤ t') (js : List Section) (hj : IsJourney trains f toSt t' js) :
    IsJourney trains f toSt t js := by
  obtain ⟨h1, h2, h3, h4, h5, h6⟩ := hj
  exact ⟨h1, h2, h3, h4, by omega, h6⟩

theorem pairLe_refl (p : Nat × Nat) : pairLe p p := Or.inr ⟨rfl, le_refl _⟩

theorem pairLe_trans (p q r : Nat × Nat) (h1 : pairLe p q) (h2 : pairLe q r) :
    pairLe p r := by
  unfold pairLe at *
  omega

theorem pairMin_eq_or (p q : Nat × Nat) : pairMin p q = p ∨ pairMin p q = q := by
  unfold pairMin
  by_cases h : p.1 < q.1 ∨ (p.1 = q.1 ∧ p.2 ≤ q.2)
  · rw [if_pos h]; exact Or.inl rfl
  · rw [if_neg h]; exact Or.inr rfl

theorem pairMin_le_left (p q : Nat × Nat) : pairLe (pairMin p q) p := by
  unfold pairMin pairLe
  by_cases h : p.1 < q.1 ∨ (p.1 = q.1 ∧ p.2 ≤ q.2)
  · rw [if_pos h]; omega
  · rw [if_neg h]; omega

theorem pairMin_le_right (p q : Nat × Nat) : pairLe (pairMin p q) q := by
  unfold pairMin pairLe
  by_cases h : p.1 < q.1 ∨ (p.1 = q.1 ∧ p.2 ≤ q.2)
  · rw [if_pos h]; omega
  · rw [if_neg h]; omega

theorem step1_eq_sent_or (trains : List (List Section)) (f toSt t : Nat)
    (hne : f ≠ toSt) (htn : toSt < nStations trains) :
    step1 trains f toSt t = (maxTime trains, maxTime trains) ∨
      (registeredEvent trains f t = true ∧
        bfsMin trains (t, f) toSt < maxTime trains ∧
        step1 trains f toSt t = (t, bfsMin trains (t, f) toSt)) := by
  unfold step1
  by_cases hreg : registeredEvent trains f t = true
  · by_cases hb : bfsMin trains (t, f) toSt < maxTime trains
    · rw [if_pos ⟨hne, htn, hreg⟩, if_pos hb]
      exact Or.inr ⟨hreg, hb, rfl⟩
    · rw [if_pos ⟨hne, htn, hreg⟩, if_neg hb]
      exact Or.inl rfl
  · rw [if_neg (fun hc => hreg hc.2.2)]
    exact Or.inl rfl

theorem step1_of_reg (trains : List (List Section)) (f toSt t : Nat)
    (hne : f ≠ toSt) (htn : toSt < nStations trains)
    (hreg : registeredEvent trains f t = true)
    (hb : bfsMin trains (t, f) toSt < maxTime trains) :
    step1 trains f toSt t = (t, bfsMin trains (t, f) toSt) := by
  unfold step1
  rw [if_pos ⟨hne, htn, hreg⟩, if_pos hb]

theorem fill_le_step1 (trains : List (List Section)) (f toSt : Nat) :
    ∀ k t t'', t'' - t = k → t ≤ t'' → t'' < maxTime trains →
      pairLe (fillFrom trains f toSt t) (step1 trains f toSt t'') := by
  intro k
  induction k with
  | zero =>
    intro t t'' hk hle hlt
    have heq : t = t'' := by omega
    subst heq
    rw [fillFrom_eq]
    by_cases h : t + 1 < maxTime trains
    · rw [if_pos h]
      exact pairMin_le_left ..
    · rw [if_neg h]
      exact pairLe_refl _
  | succ k ih =>
    intro t t'' hk hle hlt
    have hlt2 : t + 1 < maxTime trains := by omega
    rw [fillFrom_eq, if_pos hlt2]
    exact pairLe_trans _ _ _ (pairMin_le_right ..)
      (ih (t + 1) t'' (by omega) (by omega) hlt)

theorem fill_suffix_form (trains : List (List Section)) (f toSt : Nat)
    (hne : f ≠ toSt) (htn : toSt < nStations trains) :
    ∀ k t, maxTime trains - t = k + 1 →
      fillFrom trains f toSt t = (maxTime trains, maxTime trains) ∨
      ∃ t', t ≤ t' ∧ t' < maxTime trains ∧
        fillFrom trains f toSt t = step1 trains f toSt t' ∧
        registeredEvent trains f t' = true ∧
        bfsMin trains (t', f) toSt < maxTime trains ∧
        fillFrom trains f toSt t = (t', bfsMin trains (t', f) toSt) := by
  intro k
  induction k with
  | zero =>
    intro t hk
    rw [fillFrom_eq, if_neg (by omega)]
    rcases step1_eq_sent_or trains f toSt t hne htn with h | ⟨h1, h2, h3⟩
    · exact Or.inl h
    · exact Or.inr ⟨t, le_refl _, by omega, rfl, h1, h2, h3⟩
  | succ k ih =>
    intro t hk
    have hlt2 : t + 1 < maxTime trains := by omega
    rw [fillFrom_eq, if_pos hlt2]
    rcases ih (t + 1) (by omega) with hq | ⟨t', ht'1, ht'2, ht'3, ht'4, ht'5, ht'6⟩
    · rcases step1_eq_sent_or trains f toSt t hne htn with hp | ⟨h1, h2, h3⟩
      · rw [hp, hq]
        exact Or.inl (by unfold pairMin; rw [if_pos (by omega)])
      · rw [h3, hq]
        refine Or.inr ⟨t, le_refl _, by omega, ?_, h1, h2, ?_⟩
        · rw [h3]
          show pairMin _ _ = _
          unfold pairMin
          rw [if_pos (by simp; omega)]
        · show pairMin _ _ = _
          unfold pairMin
          rw [if_pos (by simp; omega)]
    · rcases step1_eq_sent_or trains f toSt t hne htn with hp | ⟨h1, h2, h3⟩
      · rw [hp, ht'6]
        refine Or.inr ⟨t', by omega, ht'2, ?_, ht'4, ht'5, ?_⟩
        · show pairMin _ _ = _
          unfold pairMin
          rw [if_neg (by simp; omega)]
          rw [← ht'6, ht'3]
        · show pairMin _ _ = _
          unfold pairMin
          rw [if_neg (by simp; omega)]
      · rw [h3, ht'6]
        refine Or.inr ⟨t, le_refl _, by omega, ?_, h1, h2, ?_⟩
        · rw [h3]
          show pairMin _ _ = _
          unfold pairMin
          rw [if_pos (by simp; omega)]
        · show pairMin _ _ = _
          unfold pairMin
          rw [if_pos (by simp; omega)]

theorem bfsMin_mono_event (trains : List (List Section)) (hv : ValidTrips trains)
    (f toSt : Nat) (hf : f < nStations trains) (hneq : toSt ≠ f)
    (t1 t2 : Nat) (h1 : t1 ∈ targetTimes trains) (h2 : t2 ∈ targetTimes trains)
    (hle : t1 ≤ t2) :
    bfsMin trains (t1, f) toSt ≤ bfsMin trains (t2, f) toSt := by
  by_cases hM : bfsMin trains (t2, f) toSt < maxTime trains
  · obtain ⟨js, hj, harr⟩ := bfsMin_achieved trains hv f toSt t2 h2 hneq hM
    have hj1 : IsJourney trains f toSt t1 js :=
      journey_mono trains f toSt t1 t2 hle js hj
    exact le_trans (bfsMin_le_journey trains hv f toSt t1 h1 hf js hj1) harr
  · have := bfsMin_le_M trains (t1, f) toSt
    omega

theorem journey_first (trains : List (List Section)) (hv : ValidTrips trains)
    (f toSt t : Nat) (js : List Section) (hj : IsJourney trains f toSt t js) :
    ∃ u, t ≤ u ∧ u < maxTime trains ∧ registeredEvent trains f u = true ∧
      u ∈ targetTimes trains ∧ IsJourney trains f toSt u js := by
  obtain ⟨hne, hmem, hchain, hhf, hht, hlf⟩ := hj
  cases js with
  | nil => exact absurd rfl hne
  | cons j rest =>
    rw [headSec_cons] at hhf hht
    have hjm : j ∈ sectionsOf trains := hmem j (List.mem_cons_self ..)
    have hreg : registeredEvent trains f j.from_time = true := by
      rw [registered_iff]
      exact ⟨j, hjm, hhf, rfl⟩
    have htarget := registered_target trains hv f j.from_time hreg
    refine ⟨j.from_time, hht, ?_, hreg, htarget, ?_⟩
    · rw [mem_targetTimes_iff] at htarget
      exact htarget.1
    · exact ⟨hne, hmem, hchain, hhf, le_refl _, hlf⟩

theorem pairLe_fst (p q : Nat × Nat) (h : pairLe p q) : p.1 ≤ q.1 := by
  unfold pairLe at h
  omega

theorem fill_char (trains : List (List Section)) (hv : ValidTrips trains)
    (f toSt : Nat) (hf : f < nStations trains) (htn : toSt < nStations trains)
    (hne : f ≠ toSt) (t : Nat) (ht : t < maxTime trains) :
    (fillFrom trains f toSt t = (maxTime trains, maxTime trains) ∧
      ∀ js, ¬ IsJourney trains f toSt t js) ∨
    ((fillFrom trains f toSt t).2 < maxTime trains ∧
      (∃ js, IsJourney trains f toSt t js ∧
        journeyArr js = (fillFrom trains f toSt t).2) ∧
      (∀ js, IsJourney trains f toSt t js →
        (fillFrom trains f toSt t).2 ≤ journeyArr js)) := by
  have hsf := fill_suffix_form trains f toSt hne htn (maxTime trains - t - 1) t
    (by omega)
  by_cases hEx : ∃ js, IsJourney trains f toSt t js
  · refine Or.inr ?_
    obtain ⟨js0, hj0⟩ := hEx
    obtain ⟨u, htu, hum, hreg, hut, hju⟩ :=
      journey_first trains hv f toSt t js0 hj0
    have hbu_le : bfsMin trains (u, f) toSt ≤ journeyArr js0 :=
      bfsMin_le_journey trains hv f toSt u hut hf js0 hju
    have harrM : journeyArr js0 < maxTime trains :=
      journeyArr_lt_M trains f toSt t js0 hj0
    have hbuM : bfsMin trains (u, f) toSt < maxTime trains := by omega
    have hstep1u : step1 trains f toSt u = (u, bfsMin trains (u, f) toSt) :=
      step1_of_reg trains f toSt u hne htn hreg hbuM
    have hple : pairLe (fillFrom trains f toSt t) (step1 trains f toSt u) :=
      fill_le_step1 trains f toSt (u - t) t u rfl htu hum
    rcases hsf with hsent | ⟨ts, hts1, hts2, hts3, hts4, hts5, hts6⟩
    · exfalso
      rw [hsent, hstep1u] at hple
      unfold pairLe at hple
      simp at hple
      omega
    · have htst := registered_target trains hv f ts hts4
      obtain ⟨jsm, hjsm, hjsmarr⟩ :=
        bfsMin_achieved trains hv f toSt ts htst (Ne.symm hne) hts5
      have hjsm_le : bfsMin trains (ts, f) toSt ≤ journeyArr jsm :=
        bfsMin_le_journey trains hv f toSt ts htst hf jsm hjsm
      have harr_eq : journeyArr jsm = bfsMin trains (ts, f) toSt := by omega
      refine ⟨by rw [hts6]; exact hts5, ⟨jsm,
        journey_mono trains f toSt t ts hts1 jsm hjsm, by rw [hts6, harr_eq]⟩, ?_⟩
      intro js hj
      obtain ⟨w, htw, hwm, hwreg, hwt, hjw⟩ :=
        journey_first trains hv f toSt t js hj
      have hbw_le : bfsMin trains (w, f) toSt ≤ journeyArr js :=
        bfsMin_le_journey trains hv f toSt w hwt hf js hjw
      have harrM2 : journeyArr js < maxTime trains :=
        journeyArr_lt_M trains f toSt t js hj
      have hbwM : bfsMin trains (w, f) toSt < maxTime trains := by omega
      have hstep1w : step1 trains f toSt w = (w, bfsMin trains (w, f) toSt) :=
        step1_of_reg trains f toSt w hne htn hwreg hbwM
      have hplew : pairLe (fillFrom trains f toSt t) (step1 trains f toSt w) :=
        fill_le_step1 trains f toSt (w - t) t w rfl htw hwm
      rw [hts6, hstep1w] at hplew
      unfold pairLe at hplew
      rw [hts6]
      simp only at hplew ⊢
      rcases hplew with hlt | ⟨heq, hle2⟩
      · have hmono := bfsMin_mono_event trains hv f toSt hf (Ne.symm hne)
          ts w htst hwt (by omega)
        omega
      · omega
  · refine Or.inl ⟨?_, fun js hj => hEx ⟨js, hj⟩⟩
    rcases hsf with hsent | ⟨ts, hts1, hts2, hts3, hts4, hts5, hts6⟩
    · exact hsent
    · exfalso
      have htst := registered_target trains hv f ts hts4
      obtain ⟨jsm, hjsm, _⟩ :=
        bfsMin_achieved trains hv f toSt ts htst (Ne.symm hne) hts5
      exact hEx ⟨jsm, journey_mono trains f toSt t ts hts1 jsm hjsm⟩

theorem fill_fst_ge (trains : List (List Section)) (f toSt : Nat)
    (hne : f ≠ toSt) (htn : toSt < nStations trains) (t : Nat)
    (ht : t < maxTime trains) : t ≤ (fillFrom trains f toSt t).1 := by
  rcases fill_suffix_form trains f toSt hne htn (maxTime trains - t - 1) t
      (by omega) with h | ⟨t', h1, h2, _, _, _, h6⟩
  · rw [h]
    exact le_of_lt ht
  · rw [h6]
    exact h1

theorem fill_fst_mono (trains : List (List Section)) (f toSt t : Nat)
    (ht : t + 1 < maxTime trains) :
    (fillFrom trains f toSt t).1 ≤ (fillFrom trains f toSt (t + 1)).1 := by
  rw [fillFrom_eq, if_pos ht]
  exact pairLe_fst _ _ (pairMin_le_right _ _)

theorem fill_snd_le (trains : List (List Section)) (f toSt : Nat)
    (hne : f ≠ toSt) (htn : toSt < nStations trains) (t : Nat)
    (ht : t < maxTime trains) :
    (fillFrom trains f toSt t).2 ≤ maxTime trains := by
  rcases fill_suffix_form trains f toSt hne htn (maxTime trains - t - 1) t
      (by omega) with h | ⟨t', _, _, _, _, h5, h6⟩
  · rw [h]
  · rw [h6]
    exact le_of_lt h5

theorem fill_snd_mono (trains : List (List Section)) (hv : ValidTrips trains)
    (f toSt : Nat) (hf : f < nStations trains) (htn : toSt < nStations trains)
    (hne : f ≠ toSt) (t : Nat) (ht : t + 1 < maxTime trains) :
    (fillFrom trains f toSt t).2 ≤ (fillFrom trains f toSt (t + 1)).2 := by
  rcases fill_char trains hv f toSt hf htn hne (t + 1) ht with
    ⟨hsent, _⟩ | ⟨_, ⟨js, hjs, harr⟩, _⟩
  · rw [hsent]
    exact fill_snd_le trains f toSt hne htn t (by omega)
  · have hjt : IsJourney trains f toSt t js :=
      journey_mono trains f toSt t (t + 1) (by omega) js hjs
    rcases fill_char trains hv f toSt hf htn hne t (by omega) with
      ⟨_, hno⟩ | ⟨_, _, hmin⟩
    · exact absurd hjt (hno js)
    · rw [← harr]
      exact hmin js hjt

theorem fill_snd_mono_le (trains : List (List Section)) (hv : ValidTrips trains)
    (f toSt : Nat) (hf : f < nStations trains) (htn : toSt < nStations trains)
    (hne : f ≠ toSt) :
    ∀ d t, t + d < maxTime trains →
      (fillFrom trains f toSt t).2 ≤ (fillFrom trains f toSt (t + d)).2 := by
  intro d
  induction d with
  | zero => intro t _; exact le_refl _
  | succ k ih =>
    intro t hlt
    exact le_trans (ih t (by omega))
      (fill_snd_mono trains hv f toSt hf htn hne (t + k) (by omega))

theorem fill_ne_sent_iff (trains : List (List Section)) (f toSt : Nat)
    (hne : f ≠ toSt) (htn : toSt < nStations trains) (t : Nat)
    (ht : t < maxTime trains) :
    fillFrom trains f toSt t ≠ (maxTime trains, maxTime trains) ↔
      (fillFrom trains f toSt t).2 < maxTime trains := by
  rcases fill_suffix_form trains f toSt hne htn (maxTime trains - t - 1) t
      (by omega) with h | ⟨t', _, _, _, _, h5, h6⟩
  · rw [h]
    simp
  · rw [h6]
    constructor
    · intro _
      exact h5
    · intro _ heq
      rw [Prod.mk.injEq] at heq
      omega

theorem journeys_exTrains :
    ∀ js, IsJourney exTrains 0 2 3 js → js = [⟨0, 2, 7, 9⟩] := by
  intro js hj
  obtain ⟨hne, hmem, hchain, hhf, hht, hlf⟩ := hj
  cases js with
  | nil => exact absurd rfl hne
  | cons j rest =>
    rw [headSec_cons] at hhf hht
    have hjm' : j = ⟨0, 1, 3, 5⟩ ∨ j = ⟨0, 2, 7, 9⟩ ∨ j = ⟨1, 0, 10, 11⟩ := by
      simpa [sectionsOf, exTrains] using hmem j (List.mem_cons_self ..)
    rcases hjm' with rfl | rfl | rfl
    · cases rest with
      | nil => exact absurd hlf (by decide)
      | cons k rest2 =>
        have hstep : SecStep ⟨0, 1, 3, 5⟩ k := (List.chain'_cons.mp hchain).1
        have hkm' : k = ⟨0, 1, 3, 5⟩ ∨ k = ⟨0, 2, 7, 9⟩ ∨ k = ⟨1, 0, 10, 11⟩ := by
          simpa [sectionsOf, exTrains] using hmem k (by simp)
        rcases hkm' with rfl | rfl | rfl
        · exact absurd hstep (by decide)
        · exact absurd hstep (by decide)
        · cases rest2 with
          | nil => exact absurd hlf (by decide)
          | cons m rest3 =>
            have hstep2 : SecStep ⟨1, 0, 10, 11⟩ m :=
              (List.chain'_cons.mp (List.chain'_cons.mp hchain).2).1
            have hmm' : m = ⟨0, 1, 3, 5⟩ ∨ m = ⟨0, 2, 7, 9⟩ ∨
                m = ⟨1, 0, 10, 11⟩ := by
              simpa [sectionsOf, exTrains] using hmem m (by simp)
            rcases hmm' with rfl | rfl | rfl
            · exact absurd hstep2 (by decide)
            · exact absurd hstep2 (by decide)
            · exact absurd hstep2 (by decide)
    · cases rest with
      | nil => rfl
      | cons k rest2 =>
        have hstep : SecStep ⟨0, 2, 7, 9⟩ k := (List.chain'_cons.mp hchain).1
        have hkm' : k = ⟨0, 1, 3, 5⟩ ∨ k = ⟨0, 2, 7, 9⟩ ∨ k = ⟨1, 0, 10, 11⟩ := by
          simpa [sectionsOf, exTrains] using hmem k (by simp)
        rcases hkm' with rfl | rfl | rfl
        · exact absurd hstep (by decide)
        · exact absurd hstep (by decide)
        · exact absurd hstep (by decide)
    · exact absurd hhf (by decide)

theorem exTrains_cell : ttGet (convert_to_timetable exTrains) 0 2 3 = (3, 9) := by
  decide

/-- C1: for every valid trip set, every ordered station pair
`f ≠ toSt` inside the allocated range and every minute `t` below the
horizon, the timetable cell produced by `convert_to_timetable` either is
the unreachable sentinel and no journey (riding scheduled sections
consecutively, transferring by waiting) from `f` to `toSt` for a
traveller present at `f` from minute `t` onward exists, or its arrival
component is the true earliest arrival: some such journey achieves it
and no such journey arrives earlier. -/
theorem claim_C1 (trains : List (List Section)) (hv : ValidTrips trains)
    (f toSt : Nat) (hf : f < nStations trains) (htn : toSt < nStations trains)
    (hne : f ≠ toSt) (t : Nat) (ht : t < maxTime trains) :
    (ttGet (convert_to_timetable trains) f toSt t =
        (maxTime trains, maxTime trains) ∧
      ∀ js, ¬ IsJourney trains f toSt t js) ∨
    ((ttGet (convert_to_timetable trains) f toSt t).2 < maxTime trains ∧
      (∃ js, IsJourney trains f toSt t js ∧
        journeyArr js = (ttGet (convert_to_timetable trains) f toSt t).2) ∧
      ∀ js, IsJourney trains f toSt t js →
        (ttGet (convert_to_timetable trains) f toSt t).2 ≤ journeyArr js) := by
  rw [convert_get trains f toSt t hf htn ht]
  exact fill_char trains hv f toSt hf htn hne t ht

/-- C1 witness: on the concrete valid trip data, station pair (0, 2) and
minute 3, the earliest-arrival characterization of the timetable cell
holds. -/
theorem claim_C1_witness :
    ValidTrips exTrains ∧
    ((ttGet (convert_to_timetable exTrains) 0 2 3 =
        (maxTime exTrains, maxTime exTrains) ∧
      ∀ js, ¬ IsJourney exTrains 0 2 3 js) ∨
    ((ttGet (convert_to_timetable exTrains) 0 2 3).2 < maxTime exTrains ∧
      (∃ js, IsJourney exTrains 0 2 3 js ∧
        journeyArr js = (ttGet (convert_to_timetable exTrains) 0 2 3).2) ∧
      ∀ js, IsJourney exTrains 0 2 3 js →
        (ttGet (convert_to_timetable exTrains) 0 2 3).2 ≤ journeyArr js)) :=
  ⟨by decide, claim_C1 exTrains (by decide) 0 2 (by decide) (by decide)
    (by decide) 3 (by decide)⟩

/-- C5: for a timetable built from a valid trip set (per the spec every
timetable arises from one), a fixed in-range pair `f ≠ toSt` and a
minute `t` with `t + 1` below the horizon, both components of the cell
at `t` are at most the corresponding components at `t + 1`; and when the
cell at `t` is not the sentinel, every earlier minute `t'` also has a
non-sentinel cell with arrival at most that of `t`. -/
theorem claim_C5 (trains : List (List Section)) (hv : ValidTrips trains)
    (f toSt : Nat) (hf : f < nStations trains) (htn : toSt < nStations trains)
    (hne : f ≠ toSt) (t : Nat) (ht : t + 1 < maxTime trains) :
    (ttGet (convert_to_timetable trains) f toSt t).1 ≤
      (ttGet (convert_to_timetable trains) f toSt (t + 1)).1 ∧
    (ttGet (convert_to_timetable trains) f toSt t).2 ≤
      (ttGet (convert_to_timetable trains) f toSt (t + 1)).2 ∧
    (ttGet (convert_to_timetable trains) f toSt t ≠
        (maxTime trains, maxTime trains) →
      ∀ t', t' ≤ t →
        ttGet (convert_to_timetable trains) f toSt t' ≠
          (maxTime trains, maxTime trains) ∧
        (ttGet (convert_to_timetable trains) f toSt t').2 ≤
          (ttGet (convert_to_timetable trains) f toSt t).2) := by
  rw [convert_get trains f toSt t hf htn (by omega),
      convert_get trains f toSt (t + 1) hf htn ht]
  refine ⟨fill_fst_mono trains f toSt t ht,
    fill_snd_mono trains hv f toSt hf htn hne t ht, ?_⟩
  intro hns t' hle
  rw [convert_get trains f toSt t' hf htn (by omega)]
  have hmono := fill_snd_mono_le trains hv f toSt hf htn hne (t - t') t'
    (by omega)
  have ht'' : t' + (t - t') = t := by omega
  rw [ht''] at hmono
  have hlt : (fillFrom trains f toSt t).2 < maxTime trains :=
    (fill_ne_sent_iff trains f toSt hne htn t (by omega)).mp hns
  exact ⟨(fill_ne_sent_iff trains f toSt hne htn t' (by omega)).mpr
    (by omega), hmono⟩

/-- C5 witness: on the concrete valid trip data, station pair (0, 2) and
minute 3, both components are monotone into minute 4 and reachability is
downward closed below minute 3. -/
theorem claim_C5_witness :
    ValidTrips exTrains ∧
    ((ttGet (convert_to_timetable exTrains) 0 2 3).1 ≤
      (ttGet (convert_to_timetable exTrains) 0 2 4).1 ∧
    (ttGet (convert_to_timetable exTrains) 0 2 3).2 ≤
      (ttGet (convert_to_timetable exTrains) 0 2 4).2 ∧
    (ttGet (convert_to_timetable exTrains) 0 2 3 ≠
        (maxTime exTrains, maxTime exTrains) →
      ∀ t', t' ≤ 3 →
        ttGet (convert_to_timetable exTrains) 0 2 t' ≠
          (maxTime exTrains, maxTime exTrains) ∧
        (ttGet (convert_to_timetable exTrains) 0 2 t').2 ≤
          (ttGet (convert_to_timetable exTrains) 0 2 3).2)) :=
  ⟨by decide, claim_C5 exTrains (by decide) 0 2 (by decide) (by decide)
    (by decide) 3 (by decide)⟩

/-- C9 (amended): the board-time component of a non-sentinel timetable
cell is the registration minute, not the boarding time of the train one
actually rides: it is the earliest registered departure event `u ≥ t` of
station `f` whose BFS earliest-arrival at `toSt` equals the cell's
arrival component, and the cell equals `(u, bfsMin (u, f) toSt)`. -/
theorem claim_C9 (trains : List (List Section)) (f toSt : Nat)
    (hf : f < nStations trains) (htn : toSt < nStations trains)
    (hne : f ≠ toSt) (t : Nat) (ht : t < maxTime trains)
    (hns : ttGet (convert_to_timetable trains) f toSt t ≠
      (maxTime trains, maxTime trains)) :
    ∃ u, ttGet (convert_to_timetable trains) f toSt t =
        (u, bfsMin trains (u, f) toSt) ∧
      t ≤ u ∧ u < maxTime trains ∧
      registeredEvent trains f u = true ∧
      bfsMin trains (u, f) toSt < maxTime trains ∧
      ∀ u', t ≤ u' → u' < maxTime trains →
        registeredEvent trains f u' = true →
        bfsMin trains (u', f) toSt = bfsMin trains (u, f) toSt →
        u ≤ u' := by
  rw [convert_get trains f toSt t hf htn ht] at hns ⊢
  rcases fill_suffix_form trains f toSt hne htn (maxTime trains - t - 1) t
      (by omega) with h | ⟨t', h1, h2, h3, h4, h5, h6⟩
  · exact absurd h hns
  · refine ⟨t', h6, h1, h2, h4, h5, ?_⟩
    intro u' hu1 hu2 hu3 hu4
    have hp := fill_le_step1 trains f toSt (u' - t) t u' rfl hu1 hu2
    rw [step1_of_reg trains f toSt u' hne htn hu3 (by rw [hu4]; exact h5),
      h6] at hp
    unfold pairLe at hp
    simp at hp
    omega

/-- C9 witness: on the concrete valid trip data, the non-sentinel cell
for pair (0, 2) at minute 3 is the pair (registration minute, BFS
earliest arrival) of the earliest qualifying departure event. -/
theorem claim_C9_witness :
    (ttGet (convert_to_timetable exTrains) 0 2 3 ≠
      (maxTime exTrains, maxTime exTrains)) ∧
    (∃ u, ttGet (convert_to_timetable exTrains) 0 2 3 =
        (u, bfsMin exTrains (u, 0) 2) ∧
      3 ≤ u ∧ u < maxTime exTrains ∧
      registeredEvent exTrains 0 u = true ∧
      bfsMin exTrains (u, 0) 2 < maxTime exTrains ∧
      ∀ u', 3 ≤ u' → u' < maxTime exTrains →
        registeredEvent exTrains 0 u' = true →
        bfsMin exTrains (u', 0) 2 = bfsMin exTrains (u, 0) 2 →
        u ≤ u') :=
  ⟨by decide, claim_C9 exTrains 0 2 (by decide) (by decide) (by decide) 3
    (by decide) (by decide)⟩

/-- C9 counterexample: on `exTrains` the cell for pair (0, 2) at minute
3 is (3, 9), but the only journey from 0 to 2 for a traveller present
from minute 3 boards its first train at minute 7 (the 0-to-2 departure);
minute 3 is merely the minute of the 0-to-1 departure event at which the
arrival 9 was registered, so the board-time component is not the actual
boarding time of the connection ridden. -/
theorem claim_C9_counterexample :
    ttGet (convert_to_timetable exTrains) 0 2 3 = (3, 9) ∧
    (∀ js, IsJourney exTrains 0 2 3 js → (headSec js).from_time = 7) ∧
    (3 : Nat) ≠ 7 := by
  refine ⟨exTrains_cell, ?_, by decide⟩
  intro js hj
  rw [journeys_exTrains js hj]
  decide
